import Mathlib

/-!
Verification of the documentation-hygiene script `.tools/generate_info.py`
(a parso-based scan-and-rewrite tool for a collection of cog packages).

The script parses Python source files into lossless concrete syntax trees
(parso), scans them for specific constructs, resolves a class definition
across relative imports, synchronizes class docstrings from manifest data,
and audits command functions and package entry files.

The shallow embedding below models:
  * parso's tree: a node is either a leaf carrying a token `type`, a
    leading-trivia string (parso's `prefix`) and a token `value`, or an
    inner node carrying a `type` and a list of children.  Serialization
    (`get_code`) concatenates trivia and value of every leaf in order.
  * the scope-boundary sets (`parso.python.tree._FUNC_CONTAINERS`, the
    script's `CONTAINERS` and `CONTAINERS_WITHOUT_LOCAL_SCOPE`),
  * the recursive scanner `_scan_recursively` (and parso's
    `_search_in_scope`, which has the same recursion structure),
  * parso accessors used by the script (`get_doc_node`, `get_decorators`,
    `get_paths`, `level`, `is_star_import`, `_split_prefix`),
  * the script's functions `update_class_docstrings`,
    `check_command_docstrings`, `check_for_end_user_data_statement`, and
    the exit-code plumbing of `main`.

Concrete example trees mirror actual output of parso's Python 3.8 grammar
(the grammar matching the repository's target Python version) on the
source texts given in their doc comments.
-/

namespace GenInfo

/-- A parso tree node: a leaf token with its leading trivia (`pfx`, parso's
`prefix` attribute) and token value, or an inner node with children. -/
inductive Node where
  | leaf (typ : String) (pfx : String) (value : String)
  | node (typ : String) (children : List Node)

/-- parso `NodeOrLeaf.type`. -/
def Node.typ : Node → String
  | .leaf t _ _ => t
  | .node t _ => t

/-- parso `BaseNode.children` (a leaf has no children; the script only asks
for children of composite nodes). -/
def Node.children : Node → List Node
  | .leaf _ _ _ => []
  | .node _ cs => cs

/-- parso `Leaf.value` (only leaves carry a token value). -/
def Node.value : Node → String
  | .leaf _ _ v => v
  | .node _ _ => ""

/-- Replace the children of a composite node. -/
def Node.withKids : Node → List Node → Node
  | .leaf t p v, _ => .leaf t p v
  | .node t _, cs => .node t cs

mutual

/-- The (trivia, value) pairs of all leaves of a node, in document order. -/
def Node.leaves : Node → List (String × String)
  | .leaf _ p v => [(p, v)]
  | .node _ cs => leavesF cs

/-- The (trivia, value) pairs of all leaves of a forest, in document order. -/
def leavesF : List Node → List (String × String)
  | [] => []
  | c :: rest => Node.leaves c ++ leavesF rest

end

/-- parso `NodeOrLeaf.get_code()`: concatenation of every leaf's leading
trivia and value, in document order. -/
def Node.getCode (n : Node) : String :=
  String.join ((n.leaves).map fun pv => pv.1 ++ pv.2)

/-- `get_code` of a forest (used for `tree.get_code()` on a module whose
children we transform). -/
def getCodeF (cs : List Node) : String :=
  String.join ((leavesF cs).map fun pv => pv.1 ++ pv.2)

/-! ## Scope boundary sets

`parso.python.tree` constants and the script's derived sets
(`generate_info.py` lines 336-357). -/

/-- `parso.python.tree._FLOW_CONTAINERS`. -/
def FLOW_CONTAINERS : List String :=
  ["if_stmt", "while_stmt", "for_stmt", "try_stmt", "with_stmt",
   "async_stmt", "suite"]

/-- `parso.python.tree._RETURN_STMT_CONTAINERS`. -/
def RETURN_STMT_CONTAINERS : List String :=
  ["suite", "simple_stmt"] ++ FLOW_CONTAINERS

/-- `parso.python.tree._FUNC_CONTAINERS`. -/
def FUNC_CONTAINERS : List String :=
  ["suite", "simple_stmt", "decorated", "async_funcdef"] ++ FLOW_CONTAINERS

/-- `parso.python.tree._IMPORTS`. -/
def IMPORTS : List String :=
  ["import_name", "import_from"]

/-- The script's `CONTAINERS` (scope-introducing boundary set):
`_FUNC_CONTAINERS | {"async_funcdef", "funcdef", "classdef"}`. -/
def CONTAINERS : List String :=
  FUNC_CONTAINERS ++ ["async_funcdef", "funcdef", "classdef"]

/-- The script's `SMALL_STMT_LIST`. -/
def SMALL_STMT_LIST : List String :=
  ["expr_stmt", "del_stmt", "pass_stmt", "flow_stmt", "import_stmt",
   "global_stmt", "nonlocal_stmt", "assert_stmt"]

/-- The script's `CONTAINERS_WITHOUT_LOCAL_SCOPE`:
`_RETURN_STMT_CONTAINERS | {"with_item"} | _IMPORTS | SMALL_STMT_LIST`. -/
def CONTAINERS_WITHOUT_LOCAL_SCOPE : List String :=
  RETURN_STMT_CONTAINERS ++ ["with_item"] ++ IMPORTS ++ SMALL_STMT_LIST

/-! ## Recursive node scanner

The script's `_scan_recursively(children, name, containers)` and parso's
`Scope._search_in_scope(*names)` share one recursion structure: visit each
element in order; yield it if its type is a target; recurse into its
children exactly when its type is in the container set.  `scanL`/`scanN`
express that generator as a function producing the yielded list in order
(the leaf case never has its type in the container sets used, so the
recursion into a leaf's absent children is dropped). -/

mutual

/-- Scan a forest: for each element in order, yield it if its type is in
`targets`, then recurse into it if its type is in `containers`. -/
def scanL (targets containers : List String) : List Node → List Node
  | [] => []
  | c :: rest => scanN targets containers c ++ scanL targets containers rest

/-- Scan a single element (match first, then conditional recursion). -/
def scanN (targets containers : List String) : Node → List Node
  | .leaf t p v => if targets.contains t then [.leaf t p v] else []
  | .node t cs =>
      (if targets.contains t then [.node t cs] else [])
        ++ (if containers.contains t then scanL targets containers cs else [])

end

/-- The script's `_scan_recursively(children, name, containers)`: the
single-target instance of the scan. -/
def scanRecursively (children : List Node) (name : String)
    (containers : List String) : List Node :=
  scanL [name] containers children

/-- parso `Scope._search_in_scope(*names)`: same scan with the fixed
recursion set `_FUNC_CONTAINERS`. -/
def searchInScope (children : List Node) (names : List String) : List Node :=
  scanL names FUNC_CONTAINERS children

mutual

/-- Parent-tracking variant of the scan: yields `(parent, match)` pairs,
where `parent` is the node whose child list contains the match (parso keeps
this as the `parent` attribute of every node; the script reads it through
`get_decorators`). -/
def scanPL (targets containers : List String) (parent : Node) :
    List Node → List (Node × Node)
  | [] => []
  | c :: rest =>
      scanPN targets containers parent c ++ scanPL targets containers parent rest

/-- Scan a single element, tracking its parent. -/
def scanPN (targets containers : List String) (parent : Node) :
    Node → List (Node × Node)
  | .leaf t p v => if targets.contains t then [(parent, .leaf t p v)] else []
  | .node t cs =>
      (if targets.contains t then [(parent, .node t cs)] else [])
        ++ (if containers.contains t then
              scanPL targets containers (.node t cs) cs
            else [])

end

/-- Reachability by the scan: `InScan targets containers cs x` holds when a
depth-first traversal of `cs` that descends exactly into container-typed
elements can reach `x` as a target-typed element. -/
inductive InScan (targets containers : List String) : List Node → Node → Prop
  | here {cs : List Node} {c : Node} :
      c ∈ cs → c.typ ∈ targets → InScan targets containers cs c
  | deeper {cs : List Node} {c x : Node} :
      c ∈ cs → c.typ ∈ containers → InScan targets containers c.children x →
      InScan targets containers cs x

/-! ## Decorator inspector and prefix trivia -/

/-- The reserved ignore-marker comment (`generate_info.py` line 385). -/
def ignoreComment : String := "# geninfo-ignore: missing-docstring"

/-- The comment parts of a leading-trivia string, as produced by parso's
`split_prefix`: a comment starts at `#` and extends up to (not including)
the next newline, carriage return or form feed. -/
def splitPrefixComments (p : String) : List String :=
  let step : List String × Option String → Char → List String × Option String :=
    fun st ch =>
      match st with
      | (done, some cur) =>
          if ch == '\n' || ch == '\r' || ch == '\x0c' then (done ++ [cur], none)
          else (done, some (cur.push ch))
      | (done, none) =>
          if ch == '#' then (done, some "#") else (done, none)
  match p.toList.foldl step ([], none) with
  | (done, some cur) => done ++ [cur]
  | (done, none) => done

/-- parso `Function.get_decorators()` for a `funcdef` whose parent is
`fnParent` and whose grandparent is `grandParent`:

    decorated = self.parent
    if decorated.type == 'async_funcdef': decorated = decorated.parent
    if decorated.type == 'decorated':
        if decorated.children[0].type == 'decorators':
            return decorated.children[0].children
        else:
            return decorated.children[:1]
    else:
        return []

In the auditor the `funcdef` is `node.children[-1]` of a scanned
`async_funcdef` node, so its parent is that node and its grandparent is the
scan parent. -/
def getDecorators (grandParent fnParent : Node) : List Node :=
  let decorated := if fnParent.typ == "async_funcdef" then grandParent else fnParent
  if decorated.typ == "decorated" then
    match decorated.children with
    | [] => []
    | c0 :: _ => if c0.typ == "decorators" then c0.children else [c0]
  else []

/-- Errors raised by the script (Python exceptions in the source). -/
inductive RunErr where
  | indexErr
      -- IndexError: out-of-range list indexing such as `decorators[0]`
  | unexpectedDecoName
      -- RuntimeError("Unexpected type of decorator name.")
  | notAPackage
      -- RuntimeError("Folder `{pkg_name}` isn't a valid package.")
  | expectedRelativeImport
      -- RuntimeError("Script expected relative import of cog's class.")
  | beyondTopLevel
      -- RuntimeError("Attempted relative import beyond top-level package.")
  | invalidFile
      -- RuntimeError("Path `{path}` isn't a valid file. ...")
  | libErr
      -- other parso-level exceptions on malformed trees (unreachable for
      -- grammar-produced trees)
deriving Repr, DecidableEq

/-- The match key the auditor computes for one decorator
(`generate_info.py` lines 389-398):

    maybe_name = deco.children[1]
    if maybe_name.type == "dotted_name":
        it = (n.value for n in maybe_name.children)
        next(it, None)                    # drop the first item
        deco_name = "".join(it)           # the dots are children too
    elif maybe_name.type == "name":
        deco_name = maybe_name.value
    else:
        raise RuntimeError("Unexpected type of decorator name.")

Note that for `commands.command` the children of the `dotted_name` node are
`[commands, ., command]`, so the computed key is the string `".command"`,
dot included. -/
def decoName (deco : Node) : Except RunErr String :=
  match deco.children.get? 1 with
  | none => .error .indexErr
  | some maybeName =>
      if maybeName.typ == "dotted_name" then
        .ok (String.join ((maybeName.children.drop 1).map Node.value))
      else if maybeName.typ == "name" then
        .ok maybeName.value
      else
        .error .unexpectedDecoName

/-- The auditor's decorator loop (`for deco in decorators: ... break / else:
continue`): returns `true` as soon as some decorator's match key is in
`{".command", ".group"}`, propagating the RuntimeError of a malformed
decorator met before any match. -/
def findCommandDeco : List Node → Except RunErr Bool
  | [] => .ok false
  | d :: rest =>
      match decoName d with
      | .error e => .error e
      | .ok n =>
          if n == ".command" || n == ".group" then .ok true
          else findCommandDeco rest

/-! ## Doc nodes (parso `DocstringMixin.get_doc_node`) -/

/-- Is this child the `:` operator leaf?  parso's `children.index(':')`
compares children against the string; only operator/keyword leaves compare
by value, and only the `:` operator can equal `":"`. -/
def isColonLeaf : Node → Bool
  | .leaf _ _ v => v == ":"
  | .node _ _ => false

/-- Index of the first `:` child (`self.children.index(':')`); `none`
models the ValueError when no child matches. -/
def colonIdx : List Node → Option Nat
  | [] => none
  | c :: rest =>
      if isColonLeaf c then some 0 else (colonIdx rest).map (· + 1)

/-- Final step of `get_doc_node`:

    if node.type == 'simple_stmt': node = node.children[0]
    if node.type == 'string': return node
    return None

Outer `none` models an IndexError (`children[0]` of an empty statement),
inner `none` models the `None` result. -/
def docFromStmt : Node → Option (Option Node)
  | .node "simple_stmt" [] => none
  | .node "simple_stmt" (c :: _) =>
      some (if c.typ == "string" then some c else none)
  | .leaf t p v =>
      if t == "simple_stmt" then none
      else some (if t == "string" then some (.leaf t p v) else none)
  | n => some (if n.typ == "string" then some n else none)

/-- parso `DocstringMixin.get_doc_node` for the branches the script
exercises (`file_input`, `funcdef`, `classdef`):

    if self.type == 'file_input': node = self.children[0]
    elif self.type in ('funcdef', 'classdef'):
        node = self.children[self.children.index(':') + 1]
        if node.type == 'suite': node = node.children[1]
    if node.type == 'simple_stmt': node = node.children[0]
    if node.type == 'string': return node
    return None

Outer `none` models a raised ValueError/IndexError/AttributeError (none of
which occur on grammar-produced trees); inner `none` models `None`. -/
def getDocNode (self : Node) : Option (Option Node) :=
  match self with
  | .leaf _ _ _ => none
  | .node t cs =>
      if t == "file_input" then
        match cs.head? with
        | none => none
        | some n0 => docFromStmt n0
      else if t == "funcdef" || t == "classdef" then
        match colonIdx cs with
        | none => none
        | some i =>
            match cs.get? (i + 1) with
            | none => none
            | some n1 =>
                if n1.typ == "suite" then
                  match n1 with
                  | .leaf _ _ _ => none
                  | .node _ ncs =>
                      match ncs.get? 1 with
                      | none => none
                      | some m => docFromStmt m
                else docFromStmt n1
      else none

/-! ## Docstring auditor (`check_command_docstrings`, lines 370-417) -/

/-- A non-fatal finding reported by the auditors. -/
inductive Finding where
  | missingDocstring (fnName : String)
  | unusedIgnore (fnName : String)
  | missingMarker (pkgName : String)
deriving Repr, DecidableEq

/-- `funcdef.name.value` (parso `ClassOrFunc.name` is `children[1]`). -/
def fnName (fd : Node) : String :=
  ((fd.children.get? 1).map Node.value).getD ""

/-- Processing of one scanned `async_funcdef` node (`generate_info.py`
lines 377-416): take `funcdef = node.children[-1]`, read its decorators,
look for the ignore-marker comment in the trivia of
`decorators[0].children[0]`, classify by decorator match key, then check
the doc node.  Any Python exception aborts the audit (Except error). -/
def auditNode (parent node : Node) : Except RunErr (List Finding) :=
  match node.children.getLast? with
  | none => .error .indexErr
  | some funcdef =>
      let decorators := getDecorators parent node
      match decorators.head? with
      | none => .error .indexErr
      | some d0 =>
          match d0.children.head? with
          | none => .error .indexErr
          | some at0 =>
              match at0 with
              | .node _ _ => .error .libErr
              | .leaf _ p0 _ =>
                  let ignore :=
                    (splitPrefixComments p0).any (fun c => c == ignoreComment)
                  match findCommandDeco decorators with
                  | .error e => .error e
                  | .ok false => .ok []
                  | .ok true =>
                      match getDocNode funcdef with
                      | none => .error .libErr
                      | some (some _) =>
                          if ignore then .ok [.unusedIgnore (fnName funcdef)]
                          else .ok []
                      | some none =>
                          if ignore then .ok []
                          else .ok [.missingDocstring (fnName funcdef)]

/-- Process the scanned nodes of one file in order, collecting findings and
propagating the first raised exception. -/
def auditScan : List (Node × Node) → Except RunErr (List Finding)
  | [] => .ok []
  | (p, n) :: rest =>
      match auditNode p n with
      | .error e => .error e
      | .ok fs =>
          match auditScan rest with
          | .error e => .error e
          | .ok fs' => .ok (fs ++ fs')

/-- The auditor's per-file work: scan the module for `async_funcdef` nodes
with the `CONTAINERS` boundary set and process each. -/
def auditFile (tree : Node) : Except RunErr (List Finding) :=
  auditScan (scanPL ["async_funcdef"] CONTAINERS tree tree.children)

/-! ## Marker auditor (`check_for_end_user_data_statement`, lines 420-439) -/

/-- The required top-level marker name. -/
def markerName : String := "__red_end_user_data_statement__"

/-- Does the entry file contain a `name` node with the marker value,
reachable by the scan bounded by `CONTAINERS_WITHOUT_LOCAL_SCOPE`?
(The `for ... break / else` loop of lines 429-437.) -/
def hasEndUserDataStatement (tree : Node) : Bool :=
  (scanRecursively tree.children "name" CONTAINERS_WITHOUT_LOCAL_SCOPE).any
    (fun n => n.value == markerName)

/-- Findings the marker auditor reports for one package's entry file:
exactly one missing-marker finding when the scan does not find the marker,
none otherwise. -/
def markerFindings (pkgName : String) (entry : Node) : List Finding :=
  if hasEndUserDataStatement entry then [] else [.missingMarker pkgName]

/-! ## Import accessors (parso `ImportFrom` / `ImportName`) -/

/-- Is this child a relative-import dot leaf (`n in ('.', '...')`)? -/
def isDotLeaf : Node → Bool
  | .leaf _ _ v => v == "." || v == "..."
  | .node _ _ => false

/-- `children[::2]`: the elements at even positions. -/
def everyOther : List Node → List Node
  | [] => []
  | [x] => [x]
  | x :: _ :: rest => x :: everyOther rest

/-- parso `ImportFrom.level` / `ImportName.level`: the number of leading
relative-import dots after the `from` keyword (`len(n.value)` summed over
the leading `.`/`...` leaves); `import_name` nodes always have level 0. -/
def importLevel (n : Node) : Nat :=
  if n.typ == "import_from" then
    ((n.children.drop 1).takeWhile isDotLeaf).foldl
      (fun acc d => acc + d.value.length) 0
  else 0

/-- parso `Import.is_star_import`: `self.children[-1] == '*'`. -/
def isStarImport (n : Node) : Bool :=
  match n.children.getLast? with
  | some (.leaf _ _ v) => v == "*"
  | _ => false

/-- parso `ImportFrom.get_from_names`:

    for n in self.children[1:]:
        if n not in ('.', '...'): break
    if n.type == 'dotted_name': return n.children[::2]
    elif n == 'import': return []
    else: return [n]
-/
def getFromNames (n : Node) : List Node :=
  match ((n.children.drop 1).dropWhile isDotLeaf).head? with
  | none => []
  | some m =>
      if m.typ == "dotted_name" then everyOther m.children
      else
        match m with
        | .leaf _ _ v => if v == "import" then [] else [m]
        | .node _ _ => [m]

/-- parso `ImportFrom._as_name_tuples`, keeping only the defined name of
each tuple (the script only reads `import_path[-1]`, which comes from the
first component):

    last = self.children[-1]
    if last == ')': last = self.children[-2]
    elif last == '*': return
    if last.type == 'import_as_names': as_names = last.children[::2]
    else: as_names = [last]
    for as_name in as_names:
        if as_name.type == 'name': yield as_name, None
        else: yield as_name.children[::2]
-/
def asNameTuples (n : Node) : List Node :=
  let cs := n.children
  let last? :=
    match cs.getLast? with
    | some (.leaf t p v) =>
        if v == ")" then cs.get? (cs.length - 2)
        else if v == "*" then none
        else some (.leaf t p v)
    | other => other
  match last? with
  | none => []
  | some last =>
      let asNames :=
        if last.typ == "import_as_names" then everyOther last.children
        else [last]
      asNames.map fun a =>
        if a.typ == "name" then a
        else ((everyOther a.children).head?).getD a

/-- parso `ImportName._dotted_as_names`, again keeping only the path of
each `(path, alias)` pair:

    dotted_as_names = self.children[1]
    if dotted_as_names.type == 'dotted_as_names':
        as_names = dotted_as_names.children[::2]
    else: as_names = [dotted_as_names]
    for as_name in as_names:
        if as_name.type == 'dotted_as_name': as_name = as_name.children[0]
        if as_name.type == 'name': yield [as_name], alias
        else: yield as_name.children[::2], alias
-/
def dottedAsNamePaths (n : Node) : List (List Node) :=
  match n.children.get? 1 with
  | none => []
  | some dan =>
      let asNames :=
        if dan.typ == "dotted_as_names" then everyOther dan.children
        else [dan]
      asNames.map fun a =>
        let a' := if a.typ == "dotted_as_name" then (a.children.head?).getD a else a
        if a'.typ == "name" then [a'] else everyOther a'.children

/-- parso `Import.get_paths()` for both import node kinds.

`import_from`: `dotted = self.get_from_names()`; star imports give
`[dotted]`, otherwise `[dotted + [name] for name, alias in tuples]`.
`import_name`: the paths of `_dotted_as_names`. -/
def getPaths (n : Node) : List (List Node) :=
  if n.typ == "import_from" then
    let dotted := getFromNames n
    if isStarImport n then [dotted]
    else (asNameTuples n).map fun nm => dotted ++ [nm]
  else if n.typ == "import_name" then
    dottedAsNamePaths n
  else []

/-! ## Import resolver (`update_class_docstrings`, lines 260-293) -/

/-- `tree.iter_classdefs()` filtered by name and taken first:

    class_node = next((node for node in tree.iter_classdefs()
                       if node.name.value == class_name), None)

`iter_classdefs` is `_search_in_scope('classdef')`, whose recursion set
`_FUNC_CONTAINERS` contains neither `funcdef` nor `classdef`. -/
def findClassNode (tree : Node) (className : String) : Option Node :=
  (searchInScope tree.children ["classdef"]).find?
    (fun n => ((n.children.get? 1).map Node.value) == some className)

/-- The import-scanning loop of lines 271-293 up to the point where a
matching import is selected: the first non-star import node among
`tree.iter_imports()` one of whose paths ends in the class name, paired
with that first matching path. -/
def findMatchingImport (tree : Node) (className : String) :
    Option (Node × List Node) :=
  let rec go : List Node → Option (Node × List Node)
    | [] => none
    | i :: rest =>
        if isStarImport i then go rest
        else
          match (getPaths i).find?
              (fun p => ((p.getLast?).map Node.value) == some className) with
          | some p => some (i, p)
          | none => go rest
  go (searchInScope tree.children IMPORTS)

/-- A file path relative to the repository root, as a list of segments. -/
abbrev FilePath' := List String

/-- The file system visible to the script: path ↦ parsed tree.  A path is a
file iff it is present. -/
abbrev FS := List (FilePath' × Node)

/-- Look up a file's parsed tree. -/
def lookupFile (fs : FS) (p : FilePath') : Option Node :=
  (fs.find? (fun e => e.1 == p)).map (·.2)

/-- Write a file: replace the tree stored at `p` (or add it). -/
def writeFile (fs : FS) (p : FilePath') (t : Node) : FS :=
  fs.map (fun e => if e.1 == p then (e.1, t) else e)

/-- `path.with_suffix(".py")` on the last segment: drop an existing
extension (the part from the last dot) and append `.py`. -/
def withSuffixPy (p : FilePath') : FilePath' :=
  match p.getLast? with
  | none => p
  | some seg =>
      let stem :=
        match seg.revFind (fun c => c == '.') with
        | some pos => seg.extract 0 pos
        | none => seg
      p.dropLast ++ [stem ++ ".py"]

/-- One-per-iteration account of the `while True:` loop of lines 260-293,
with fuel (`none` = the loop did not terminate within `fuel` iterations):

    while True:
        tree = parse(path.read())
        class_node = first classdef named class_name   # break if found
        for import_node in tree.iter_imports():
            # skip star imports; find first path ending in class_name
            if import_node.level == 0: raise AbsoluteImport
            if import_node.level > 1: raise BeyondTopLevel
            path = ROOT / pkg_name / *import_path[:-1] with suffix .py
            if not path.is_file(): raise InvalidFile
            break
        # note: if no import matched, the loop repeats with `path` unchanged

Termination result is the path of the file that defines the class. -/
def resolveLoop (fs : FS) (pkgName className : String) :
    Nat → FilePath' → Option (Except RunErr FilePath')
  | 0, _ => none
  | fuel + 1, path =>
      match lookupFile fs path with
      | none => some (.error .invalidFile)
      | some tree =>
          if (findClassNode tree className).isSome then some (.ok path)
          else
            match findMatchingImport tree className with
            | none => resolveLoop fs pkgName className fuel path
            | some (imp, ipath) =>
                if importLevel imp == 0 then
                  some (.error .expectedRelativeImport)
                else if importLevel imp > 1 then
                  some (.error .beyondTopLevel)
                else
                  let newPath :=
                    withSuffixPy (pkgName :: (ipath.dropLast).map Node.value)
                  if (lookupFile fs newPath).isSome then
                    resolveLoop fs pkgName className fuel newPath
                  else some (.error .invalidFile)

/-! ## Docstring synchronizer (`update_class_docstrings`, lines 295-313)

    doc_node = class_node.get_doc_node()
    new_docstring = cog_info.get("class_docstring") or cog_info["short"]
    new_docstring = new_docstring.format_map(replacements)
    if doc_node is not None:
        doc_node.value = f'\x22\x22\x22{new_docstring}\x22\x22\x22'
    else:
        first_leaf = class_node.children[-1].get_first_leaf()
        first_leaf.prefix = f'\n    \x22\x22\x22{new_docstring}\x22\x22\x22\n'
    new_code = tree.get_code()
    if source != new_code: write(path, tree.get_code())

The in-place mutations become functional rewrites of the class node inside
the tree, performed along the same navigation as `get_doc_node`. -/

/-- The new docstring literal `f'"""{new_docstring}"""'`. -/
def mkDocVal (doc : String) : String :=
  "\"\"\"" ++ doc ++ "\"\"\""

/-- The fixed trivia string assigned to the first leaf of the class body
when no doc node exists: `f'\n    """{new_docstring}"""\n'`.  Note the
indentation is the fixed four spaces, not inferred from the body. -/
def insertPfxString (doc : String) : String :=
  "\n    " ++ mkDocVal doc ++ "\n"

mutual

/-- `node.get_first_leaf().prefix = s`, functionally: rewrite the trivia of
the first leaf.  `none` models the IndexError of `children[0]` on an empty
composite node. -/
def setFirstLeafPfx (n : Node) (s : String) : Option Node :=
  match n with
  | .leaf t _ v => some (.leaf t s v)
  | .node t cs =>
      match setFirstLeafPfxL cs s with
      | none => none
      | some cs' => some (.node t cs')

/-- Rewrite the trivia of the first leaf of a forest's first element. -/
def setFirstLeafPfxL (cs : List Node) (s : String) : Option (List Node) :=
  match cs with
  | [] => none
  | c :: rest =>
      match setFirstLeafPfx c s with
      | none => none
      | some c' => some (c' :: rest)

end

/-- Result of looking for / replacing the doc node at statement level. -/
inductive StmtDoc where
  | libErr
  | noDoc
  | repl (m' : Node)

/-- The final `get_doc_node` step fused with `doc_node.value = v`: if the
statement holds a doc string leaf, return the statement with that leaf's
value replaced; `noDoc` when `get_doc_node` would return `None`; `libErr`
for the exceptions on malformed nodes (empty `simple_stmt`, a leaf typed
`simple_stmt`). -/
def replaceDocInStmt (v : String) : Node → StmtDoc
  | .leaf t p _ =>
      if t == "simple_stmt" then .libErr
      else if t == "string" then .repl (.leaf t p v)
      else .noDoc
  | .node t [] =>
      if t == "simple_stmt" then .libErr
      else if t == "string" then .libErr
        -- setting `.value` on a slotted composite node raises AttributeError
      else .noDoc
  | .node t (.leaf ct cp _ :: rest) =>
      if t == "simple_stmt" then
        (if ct == "string" then .repl (.node t (.leaf ct cp v :: rest))
         else .noDoc)
      else if t == "string" then .libErr
      else .noDoc
  | .node t (.node ct ck :: rest) =>
      if t == "simple_stmt" then .noDoc
      else if t == "string" then .libErr
      else .noDoc

/-- The insert branch: overwrite the trivia of the first leaf of
`class_node.children[-1]` with the fixed docstring-carrying string.  The
last child is rewritten in place (`cs.set (cs.length - 1) ...`), matching
the in-place Python mutation. -/
def insertDoc (t : String) (cs : List Node) (doc : String) : Option Node :=
  match cs.getLast? with
  | none => none
  | some lastC =>
      match setFirstLeafPfx lastC (insertPfxString doc) with
      | none => none
      | some l' => some (.node t (cs.set (cs.length - 1) l'))

/-- One docstring mutation of a class node: replace the doc node's value if
`get_doc_node` finds one (navigating exactly as `getDocNode` does for a
`classdef`), otherwise insert via the trivia of the body's first leaf.
`none` models a raised parso-level exception (unreachable for
grammar-produced class nodes). -/
def mutateClass (cls : Node) (doc : String) : Option Node :=
  match cls with
  | .leaf _ _ _ => none
  | .node t cs =>
      match colonIdx cs with
      | none => none
      | some i =>
          match cs.get? (i + 1) with
          | none => none
          | some n1 =>
              if n1.typ == "suite" then
                match n1 with
                | .leaf _ _ _ => none
                | .node nt ncs =>
                    match ncs.get? 1 with
                    | none => none
                    | some m =>
                        match replaceDocInStmt (mkDocVal doc) m with
                        | .libErr => none
                        | .repl m' =>
                            some (.node t (cs.set (i + 1) (.node nt (ncs.set 1 m'))))
                        | .noDoc => insertDoc t cs doc
              else
                match replaceDocInStmt (mkDocVal doc) n1 with
                | .libErr => none
                | .repl n1' => some (.node t (cs.set (i + 1) n1'))
                | .noDoc => insertDoc t cs doc

/-- Does this element match the searched class
(`node.type == 'classdef' and node.name.value == class_name`)? -/
def isMatchingClassdef (c : Node) (className : String) : Bool :=
  c.typ == "classdef" && ((c.children.get? 1).map Node.value) == some className

/-- Result of find-and-mutate over a forest. -/
inductive MutRes where
  | notFound
  | err
  | ok (cs : List Node)

/-- Result of find-and-mutate at a single element. -/
inductive MutResN where
  | notFound
  | err
  | ok (c : Node)

mutual

/-- Find the first class definition named `className` in the traversal
order of `iter_classdefs` (match before recursion, recursion exactly into
`_FUNC_CONTAINERS`-typed elements) and apply the docstring mutation to it,
rebuilding the forest.  `notFound` corresponds to `class_node is None`,
`err` to a raised parso-level exception. -/
def mutateForest (className doc : String) : List Node → MutRes
  | [] => .notFound
  | c :: rest =>
      match mutateElem className doc c with
      | .ok c' => .ok (c' :: rest)
      | .err => .err
      | .notFound =>
          match mutateForest className doc rest with
          | .ok rest' => .ok (c :: rest')
          | .err => .err
          | .notFound => .notFound

/-- Find-and-mutate at one element: mutate it if it is the matching
classdef, otherwise descend into it exactly when its type is in
`_FUNC_CONTAINERS` (a leaf has no children to descend into). -/
def mutateElem (className doc : String) : Node → MutResN
  | .leaf t p v =>
      if isMatchingClassdef (.leaf t p v) className then
        match mutateClass (.leaf t p v) doc with
        | some c' => .ok c'
        | none => .err
      else .notFound
  | .node t k =>
      if isMatchingClassdef (.node t k) className then
        match mutateClass (.node t k) doc with
        | some c' => .ok c'
        | none => .err
      else if FUNC_CONTAINERS.contains t then
        match mutateForest className doc k with
        | .ok k' => .ok (.node t k')
        | .err => .err
        | .notFound => .notFound
      else .notFound

end

/-- One synchronizer pass over a parsed file: mutate the first matching
class definition and report whether the file would be written
(`source != tree.get_code()`, where `source` is the serialization of the
unmutated tree by parso's lossless round-trip).  `none` when the class is
absent or the mutation raised. -/
def syncTree (tree : Node) (className doc : String) : Option (Node × Bool) :=
  match tree with
  | .leaf _ _ _ => none
  | .node t cs =>
      match mutateForest className doc cs with
      | .ok cs' =>
          some (.node t cs', decide (¬ getCodeF cs' = getCodeF cs))
      | _ => none

/-! ## Manifest data and `main`'s exit-code plumbing -/

/-- The manifest fields of one cog that the core reads: the class name
(`cog_info["name"]`), the short description, and the optional docstring
override. -/
structure CogInfo where
  name : String
  short : String
  classDocstring : Option String

/-- One package: its name and its manifest record. -/
structure Cog where
  pkgName : String
  info : CogInfo

/-- Leftmost non-overlapping substring replacement over character lists
(the effect of Python's `str.replace` for a nonempty pattern): `skip`
counts characters still covered by the previous match. -/
def replaceCharsAux (pat rep : List Char) : Nat → List Char → List Char
  | _, [] => []
  | skip + 1, _ :: rest => replaceCharsAux pat rep skip rest
  | 0, c :: rest =>
      if pat.isPrefixOf (c :: rest) then
        rep ++ replaceCharsAux pat rep (pat.length - 1) rest
      else c :: replaceCharsAux pat rep 0 rest

/-- String-level wrapper for `replaceCharsAux`. -/
def replaceAll (s pat rep : String) : String :=
  String.mk (replaceCharsAux pat.toList rep.toList 0 s.toList)

/-- `new_docstring.format_map({"repo_name": ..., "cog_name": ...})`,
modelled as substitution of the two placeholders (the script's templates
contain no other format fields). -/
def formatMap2 (s repoName cogName : String) : String :=
  replaceAll (replaceAll s "{repo_name}" repoName) "{cog_name}" cogName

/-- `cog_info.get("class_docstring") or cog_info["short"]`: the override if
present and non-empty (Python `or` also discards an empty string), else the
short description; then placeholder substitution. -/
def newDocstringFor (info : CogInfo) (repoName : String) : String :=
  let base :=
    match info.classDocstring with
    | some s => if s == "" then info.short else s
    | none => info.short
  formatMap2 base repoName info.name

/-- The entry-file path of a package: `ROOT_PATH / pkg_name / "__init__.py"`. -/
def entryPath (pkgName : String) : FilePath' :=
  [pkgName, "__init__.py"]

/-- The script's `update_class_docstrings(cogs, repo_info)` over the
file-system model: for each cog, check the entry file exists, run the
resolver loop, apply the docstring mutation to the resolved file, and write
it back only when the serialized bytes changed.  Returns the updated file
system (the function itself always returns the int 0).  `none` = the
resolver loop did not terminate within `fuel` iterations. -/
def updateClassDocstrings (fuel : Nat) (fs : FS) (cogs : List Cog)
    (repoName : String) : Option (Except RunErr FS) :=
  match cogs with
  | [] => some (.ok fs)
  | cog :: rest =>
      let path0 := entryPath cog.pkgName
      if (lookupFile fs path0).isNone then some (.error .notAPackage)
      else
        match resolveLoop fs cog.pkgName cog.info.name fuel path0 with
        | none => none
        | some (.error e) => some (.error e)
        | some (.ok path) =>
            match lookupFile fs path with
            | none => some (.error .invalidFile)
            | some tree =>
                match syncTree tree cog.info.name
                    (newDocstringFor cog.info repoName) with
                | none => some (.error .libErr)
                | some (tree', wrote) =>
                    let fs' := if wrote then writeFile fs path tree' else fs
                    updateClassDocstrings fuel fs' rest repoName

/-- The files of one package seen by `pkg_folder.glob("**/*.py")`: the
stored files whose path starts with the package directory. -/
def pkgFiles (fs : FS) (pkgName : String) : List Node :=
  (fs.filter (fun e => e.1.head? == some pkgName)).map (·.2)

/-- The script's `check_command_docstrings(cogs)`: audit every file of
every package; the returned code is 1 iff any finding was printed.
Exceptions propagate. -/
def checkCommandDocstrings (fs : FS) (cogs : List Cog) :
    Except RunErr Nat :=
  let rec goFiles : List Node → Except RunErr (List Finding)
    | [] => .ok []
    | t :: ts =>
        match auditFile t with
        | .error e => .error e
        | .ok fsd =>
            match goFiles ts with
            | .error e => .error e
            | .ok fsd' => .ok (fsd ++ fsd')
  let rec goCogs : List Cog → Except RunErr (List Finding)
    | [] => .ok []
    | c :: cs =>
        match goFiles (pkgFiles fs c.pkgName) with
        | .error e => .error e
        | .ok fsd =>
            match goCogs cs with
            | .error e => .error e
            | .ok fsd' => .ok (fsd ++ fsd')
  match goCogs cogs with
  | .error e => .error e
  | .ok fsd => .ok (if fsd.isEmpty then 0 else 1)

/-- The script's `check_for_end_user_data_statement(cogs)`: scan each
package's entry file for the marker; the returned code is 1 iff some
package misses it.  A missing entry file raises. -/
def checkForEndUserDataStatement (fs : FS) (cogs : List Cog) :
    Except RunErr Nat :=
  let rec go : List Cog → Except RunErr (List Finding)
    | [] => .ok []
    | c :: cs =>
        match lookupFile fs (entryPath c.pkgName) with
        | none => .error .notAPackage
        | some entry =>
            match go cs with
            | .error e => .error e
            | .ok fsd => .ok (markerFindings c.pkgName entry ++ fsd)
  match go cogs with
  | .error e => .error e
  | .ok fsd => .ok (if fsd.isEmpty then 0 else 1)

/-- The exit-code plumbing of `main` (lines 448-454 and 587-597):

    exit_code = check_order(data)
    ...                                   # info.json / README emission
    update_class_docstrings(cogs, repo_info)      # result discarded
    check_cog_data_path_use(cogs)                 # result discarded
    check_command_docstrings(cogs)                # result discarded
    check_for_end_user_data_statement(cogs)       # result discarded
    return exit_code

`check_order`, the JSON/README emission and the version-control query
(`check_cog_data_path_use`) belong to the excluded manifest/collaborator
side; `orderExit` stands for `check_order(data)`'s result, and the
emission steps are assumed to succeed.  The three core calls are still
executed (their exceptions and divergence abort the run) but their integer
results are bound to nothing, exactly as in the source. -/
def mainVerdict (fuel : Nat) (orderExit : Nat) (fs : FS) (cogs : List Cog)
    (repoName : String) : Option (Except RunErr Nat) :=
  match updateClassDocstrings fuel fs cogs repoName with
  | none => none
  | some (.error e) => some (.error e)
  | some (.ok fs') =>
      match checkCommandDocstrings fs' cogs with
      | .error e => some (.error e)
      | .ok _ =>
          match checkForEndUserDataStatement fs' cogs with
          | .error e => some (.error e)
          | .ok _ => some (.ok orderExit)

/-! ## Spec-side definitions

These definitions follow the wording of the specification (not the code)
and exist only to be compared against the code-derived definitions above:
refinement counterparts for the claims that assert spec-level behaviour. -/

mutual

/-- Modelled from the spec: a scan that "recurses into every child node
during its depth-first traversal, regardless of whether the child's kind is
in the boundary set" (claim C6's reading of §4.3). -/
def scanAllL (target : String) : List Node → List Node
  | [] => []
  | c :: rest => scanAllN target c ++ scanAllL target rest

/-- Modelled from the spec: single-element step of the recurse-into-every-
child scan. -/
def scanAllN (target : String) : Node → List Node
  | .leaf t p v => if t == target then [.leaf t p v] else []
  | .node t cs =>
      (if t == target then [.node t cs] else []) ++ scanAllL target cs

end

mutual

/-- Modelled from the spec: "a class definition whose name equals className
at any scope — including a class defined nested inside a function or class
body" (claim C7): a classdef with matching name anywhere in the forest. -/
def specClassAnywhereF (className : String) : List Node → Bool
  | [] => false
  | c :: rest =>
      specClassAnywhereN className c || specClassAnywhereF className rest

/-- Modelled from the spec: classdef-with-name search in one subtree. -/
def specClassAnywhereN (className : String) : Node → Bool
  | .leaf _ _ _ => false
  | .node t cs =>
      (t == "classdef"
        && ((cs.get? 1).map Node.value) == some className)
      || specClassAnywhereF className cs

end

/-- The node kinds that introduce a function or class body (spec §3:
"function/class/lambda/comprehension definitions"; an undecorated async
function is wrapped in `async_stmt`, whose `funcdef` child carries the
body). -/
def scopeIntroducers : List String :=
  ["funcdef", "classdef", "async_funcdef", "lambdef"]

mutual

/-- Modelled from the spec: the marker name "occurs somewhere in the file
reachable without crossing into a function or class body" (claim C9): a
`name` leaf with the marker value reachable through children of nodes whose
kind introduces no function/class body. -/
def specMarkerReachableF (marker : String) : List Node → Bool
  | [] => false
  | c :: rest =>
      specMarkerReachableN marker c || specMarkerReachableF marker rest

/-- Modelled from the spec: marker reachability in one subtree. -/
def specMarkerReachableN (marker : String) : Node → Bool
  | .leaf t _ v => t == "name" && v == marker
  | .node t cs =>
      if scopeIntroducers.contains t then false
      else specMarkerReachableF marker cs

end

/-- Modelled from the spec (claim C1): "every token outside the mutated
span of the re-serialized file is byte-identical to the original file
content, including all leading trivia (comments and whitespace) of
unmutated tokens" — after one docstring mutation, the leaf sequence either
has exactly one token's value replaced by the new docstring literal with
its trivia intact, or has a new nonempty token run inserted with every
pre-existing token (trivia included) byte-identical. -/
def C1Frame (cs cs' : List Node) (newVal : String) : Prop :=
  (∃ pre p v post,
      leavesF cs = pre ++ (p, v) :: post ∧
      leavesF cs' = pre ++ (p, newVal) :: post) ∨
  (∃ pre ins post,
      ins ≠ [] ∧
      leavesF cs = pre ++ post ∧
      leavesF cs' = pre ++ ins ++ post)

mutual

/-- Every `classdef`-typed node in the tree starts with a non-colon child
(grammar-produced class definitions start with the `class` keyword). -/
def classdefShapedN : Node → Bool
  | .leaf _ _ _ => true
  | .node t cs =>
      (if t == "classdef" then
        (match cs.head? with
         | some c => !isColonLeaf c
         | none => true)
      else true) && classdefShapedF cs

def classdefShapedF : List Node → Bool
  | [] => true
  | c :: rest => classdefShapedN c && classdefShapedF rest

end

/-! ## Concrete example trees

Each tree is the output of parso's Python 3.8 grammar (the repository's
target version) on the source text quoted in its doc comment. -/

/-- Leaf shorthands. -/
def kw (p v : String) : Node := .leaf "keyword" p v

def op (p v : String) : Node := .leaf "operator" p v

def nm (p v : String) : Node := .leaf "name" p v

def nl (p : String) : Node := .leaf "newline" p "\n"

def strLf (p v : String) : Node := .leaf "string" p v

def endMarker : Node := .leaf "endmarker" "" ""

/-- Parse of `""` (an empty module). -/
def exEmptyModule : Node := .node "file_input" [endMarker]

/-- Parse of `"class X: # hi\n    pass\n"` — a class with a trailing
comment in the trivia of its suite's first token and no docstring. -/
def exClassComment : Node :=
  .node "file_input"
    [.node "classdef"
      [kw "" "class", nm " " "X", op "" ":",
       .node "suite"
         [.leaf "newline" " # hi" "\n",
          .node "simple_stmt" [kw "    " "pass", nl ""]]],
     endMarker]

/-- The children of `exClassComment` after the docstring mutation with
docstring `D.`: the suite's first leaf gets the fixed inserted trivia and
the ` # hi` comment is destroyed. -/
def exClassCommentMut : List Node :=
  [.node "classdef"
    [kw "" "class", nm " " "X", op "" ":",
     .node "suite"
       [.leaf "newline" "\n    \"\"\"D.\"\"\"\n" "\n",
        .node "simple_stmt" [kw "    " "pass", nl ""]]],
   endMarker]

/-- Parse of `"class X:\n    \"\"\"Tracks X.\"\"\"\n    pass\n"` — a class
with a docstring. -/
def exClassDoc : Node :=
  .node "file_input"
    [.node "classdef"
      [kw "" "class", nm " " "X", op "" ":",
       .node "suite"
         [nl "",
          .node "simple_stmt" [strLf "    " "\"\"\"Tracks X.\"\"\"", nl ""],
          .node "simple_stmt" [kw "    " "pass", nl ""]]],
     endMarker]

/-- `exClassDoc` after replacing the docstring with `New.`. -/
def exClassDocMut : Node :=
  .node "file_input"
    [.node "classdef"
      [kw "" "class", nm " " "X", op "" ":",
       .node "suite"
         [nl "",
          .node "simple_stmt" [strLf "    " "\"\"\"New.\"\"\"", nl ""],
          .node "simple_stmt" [kw "    " "pass", nl ""]]],
     endMarker]

/-- The `parameters` node of a no-argument function: `()`. -/
def exParams : Node := .node "parameters" [op "" "(", op "" ")"]

/-- A `funcdef` node `def <name>():\n    pass\n` with given leading trivia
on `def` and given name. -/
def funcdefNode (p name : String) : Node :=
  .node "funcdef"
    [kw p "def", nm " " name, exParams, op "" ":",
     .node "suite" [nl "", .node "simple_stmt" [kw "    " "pass", nl ""]]]

/-- The decorator `@commands.command()` (children of its `dotted_name` are
`[commands, ., command]`). -/
def exDottedDeco : Node :=
  .node "decorator"
    [op "" "@",
     .node "dotted_name" [nm "" "commands", op "" ".", nm "" "command"],
     op "" "(", op "" ")", nl ""]

/-- The bare decorator `@command`. -/
def exBareDeco : Node :=
  .node "decorator" [op "" "@", nm "" "command", nl ""]

/-- Parse of `"@command\nasync def f():\n    pass\n"` — an async command
declared with a bare decorator and no docstring. -/
def exBareDecoAsync : Node :=
  .node "file_input"
    [.node "decorated"
      [exBareDeco,
       .node "async_funcdef" [kw "" "async", funcdefNode " " "f"]],
     endMarker]

/-- Parse of `"@commands.command()\ndef f():\n    pass\n"` — a synchronous
command function with no docstring. -/
def exDecoSync : Node :=
  .node "file_input"
    [.node "decorated" [exDottedDeco, funcdefNode "" "f"], endMarker]

/-- Parse of `"@commands.command()\nasync def f():\n    pass\n"` — an async
command function with no docstring. -/
def exDecoAsync : Node :=
  .node "file_input"
    [.node "decorated"
      [exDottedDeco,
       .node "async_funcdef" [kw "" "async", funcdefNode " " "f"]],
     endMarker]

/-- Parse of `"async def f():\n    pass\n"` — an undecorated async function
(note the node kind: `async_stmt`, not `async_funcdef`). -/
def exBareAsync : Node :=
  .node "file_input"
    [.node "async_stmt" [kw "" "async", funcdefNode " " "f"], endMarker]

/-- Parse of
`"async def f():\n    pass\n\n@commands.command()\nasync def g():\n    pass\n"`
— an undecorated async function followed by a decorated async command with
no docstring. -/
def exBareAsyncPlusCmd : Node :=
  .node "file_input"
    [.node "async_stmt" [kw "" "async", funcdefNode " " "f"],
     .node "decorated"
       [.node "decorator"
         [op "\n" "@",
          .node "dotted_name" [nm "" "commands", op "" ".", nm "" "command"],
          op "" "(", op "" ")", nl ""],
        .node "async_funcdef" [kw "" "async", funcdefNode " " "g"]],
     endMarker]

/-- Parse of `"x = (__red_end_user_data_statement__)\n"` — the marker name
inside a parenthesized expression (an `atom` node) at module level. -/
def exAtomName : Node :=
  .node "file_input"
    [.node "simple_stmt"
      [.node "expr_stmt"
        [nm "" "x", op " " "=",
         .node "atom"
           [op " " "(", nm "" "__red_end_user_data_statement__", op "" ")"]],
       nl ""],
     endMarker]

/-- Parse of `"def f():\n    class C:\n        pass\n"` — a class
definition nested inside a function body. -/
def exNestedClass : Node :=
  .node "file_input"
    [.node "funcdef"
      [kw "" "def", nm " " "f", exParams, op "" ":",
       .node "suite"
         [nl "",
          .node "classdef"
            [kw "    " "class", nm " " "C", op "" ":",
             .node "suite"
               [nl "", .node "simple_stmt" [kw "        " "pass", nl ""]]]]],
     endMarker]

/-- Parse of the entry file
`"class PkgCls:\n    \"\"\"Short.\"\"\"\n__red_end_user_data_statement__ = \"s\"\n"`
— a package entry that defines the cog class with an already-synchronized
docstring and carries the end-user-data marker. -/
def exEntry : Node :=
  .node "file_input"
    [.node "classdef"
      [kw "" "class", nm " " "PkgCls", op "" ":",
       .node "suite"
         [nl "",
          .node "simple_stmt" [strLf "    " "\"\"\"Short.\"\"\"", nl ""]]],
     .node "simple_stmt"
       [.node "expr_stmt"
         [nm "" "__red_end_user_data_statement__", op " " "=", strLf " " "\"s\""],
        nl ""],
     endMarker]

/-- The file-system of the example package `pkg`: its entry file and one
command module (`exDecoAsync`, whose command misses its docstring). -/
def exFS : FS :=
  [(["pkg", "__init__.py"], exEntry), (["pkg", "cmds.py"], exDecoAsync)]

/-- The manifest record of the example package. -/
def exCogs : List Cog :=
  [⟨"pkg", ⟨"PkgCls", "Short.", none⟩⟩]

mutual

/-- Number of nodes in a tree (the induction measure for scan proofs). -/
def Node.size : Node → Nat
  | .leaf _ _ _ => 1
  | .node _ cs => 1 + sizeF cs

/-- Number of nodes in a forest. -/
def sizeF : List Node → Nat
  | [] => 0
  | c :: rest => Node.size c + sizeF rest

end

/-! # Theorems -/

theorem size_pos (n : Node) : 1 ≤ n.size := by
  cases n <;> simp [Node.size] <;> omega

theorem sizeF_children_lt (hd : Node) (rest : List Node) :
    sizeF hd.children < sizeF (hd :: rest) := by
  cases hd with
  | leaf t p v => simp [Node.children, sizeF, Node.size]
  | node t k => simp [Node.children, sizeF, Node.size]; omega

theorem sizeF_rest_lt (hd : Node) (rest : List Node) :
    sizeF rest < sizeF (hd :: rest) := by
  have := size_pos hd
  simp [sizeF]; omega

theorem size_le_of_mem {c : Node} {cs : List Node} (h : c ∈ cs) :
    Node.size c ≤ sizeF cs := by
  induction cs with
  | nil => cases h
  | cons d rest ih =>
      rcases List.mem_cons.mp h with rfl | h'
      · simp [sizeF]
      · have := ih h'
        simp [sizeF]
        omega

/-- Joint induction principle for trees and forests (used for the lemmas
about the mutually recursive functions). -/
theorem node_forest_ind (PN : Node → Prop) (PF : List Node → Prop)
    (hleaf : ∀ t p v, PN (.leaf t p v))
    (hnode : ∀ t cs, PF cs → PN (.node t cs))
    (hnil : PF [])
    (hcons : ∀ c rest, PN c → PF rest → PF (c :: rest)) :
    (∀ n, PN n) ∧ (∀ cs, PF cs) := by
  have hforest : ∀ cs : List Node, (∀ c ∈ cs, PN c) → PF cs := by
    intro cs
    induction cs with
    | nil => intro _; exact hnil
    | cons c rest ih =>
        intro h
        exact hcons c rest (h c (List.mem_cons_self _ _))
          (ih fun d hd => h d (List.mem_cons_of_mem _ hd))
  have hnodeAll : ∀ m, ∀ n : Node, Node.size n ≤ m → PN n := by
    intro m
    induction m with
    | zero =>
        intro n h
        exfalso
        have := size_pos n
        omega
    | succ m ih =>
        intro n h
        cases n with
        | leaf t p v => exact hleaf t p v
        | node t cs =>
            refine hnode t cs (hforest cs fun c hc => ih c ?_)
            have h1 := size_le_of_mem hc
            simp [Node.size] at h
            omega
  exact ⟨fun n => hnodeAll (Node.size n) n (le_refl _),
         fun cs => hforest cs fun c _ => hnodeAll _ c (le_refl _)⟩

theorem leavesF_append (a b : List Node) :
    leavesF (a ++ b) = leavesF a ++ leavesF b := by
  induction a with
  | nil => simp [leavesF]
  | cons c rest ih => simp [leavesF, ih]

theorem leavesF_set (cs : List Node) :
    ∀ (j : Nat) (x y : Node), cs.get? j = some y →
      leavesF (cs.set j x) =
        leavesF (cs.take j) ++ Node.leaves x ++ leavesF (cs.drop (j + 1)) ∧
      leavesF cs =
        leavesF (cs.take j) ++ Node.leaves y ++ leavesF (cs.drop (j + 1)) := by
  induction cs with
  | nil => intro j x y h; simp at h
  | cons c rest ih =>
      intro j x y h
      cases j with
      | zero =>
          simp at h
          subst h
          simp [List.set, leavesF]
      | succ j' =>
          simp only [List.get?_cons_succ] at h
          obtain ⟨h1, h2⟩ := ih j' x y h
          constructor
          · simp [List.set, leavesF, h1, List.take, List.drop]
          · conv_lhs => rw [leavesF, h2]
            simp [List.take, List.drop, leavesF]

theorem colonIdx_set_of_lt :
    ∀ (cs : List Node) (i j : Nat) (x : Node),
      colonIdx cs = some i → i < j → colonIdx (cs.set j x) = some i := by
  intro cs
  induction cs with
  | nil => intro i j x h; simp [colonIdx] at h
  | cons c rest ih =>
      intro i j x h hij
      by_cases hp : isColonLeaf c
      · rw [colonIdx, if_pos hp] at h
        cases h
        cases j with
        | zero => omega
        | succ j' => simp [List.set, colonIdx, hp]
      · rw [colonIdx, if_neg hp] at h
        rcases Option.map_eq_some'.mp h with ⟨i', hi', rfl⟩
        cases j with
        | zero => omega
        | succ j' =>
            simp only [List.set]
            rw [colonIdx, if_neg hp, ih i' j' x hi' (by omega)]
            rfl

theorem colonIdx_pos {c0 : Node} {rest : List Node} {i : Nat}
    (h0 : isColonLeaf c0 = false) (h : colonIdx (c0 :: rest) = some i) :
    1 ≤ i := by
  rw [colonIdx, if_neg (by simp [h0])] at h
  rcases Option.map_eq_some'.mp h with ⟨i', _, rfl⟩
  omega

theorem get?_some_lt {cs : List Node} {j : Nat} {y : Node}
    (h : cs.get? j = some y) : j < cs.length := by
  by_contra hlt
  rw [List.get?_eq_none.mpr (by omega)] at h
  exact Option.noConfusion h

theorem getLast?_set_last {cs : List Node} (hne : cs ≠ []) (x : Node) :
    (cs.set (cs.length - 1) x).getLast? = some x := by
  have hlen : 0 < cs.length := List.length_pos.mpr hne
  rw [List.getLast?_eq_get?]
  rw [List.length_set]
  exact List.get?_set_eq_of_lt x (by omega)

theorem setFirstLeafPfx_frame_all :
    (∀ n : Node, ∀ (s : String) (n' : Node), setFirstLeafPfx n s = some n' →
      ∃ p v rest, Node.leaves n = (p, v) :: rest ∧
        Node.leaves n' = (s, v) :: rest) ∧
    (∀ cs : List Node, ∀ (s : String) (cs' : List Node),
      setFirstLeafPfxL cs s = some cs' →
      ∃ p v rest, leavesF cs = (p, v) :: rest ∧
        leavesF cs' = (s, v) :: rest) := by
  apply node_forest_ind
  · intro t p v s n' h
    rw [setFirstLeafPfx] at h
    cases Option.some.inj h
    exact ⟨p, v, [], rfl, rfl⟩
  · intro t cs ih s n' h
    rw [setFirstLeafPfx] at h
    cases hcs : setFirstLeafPfxL cs s with
    | none => rw [hcs] at h; exact Option.noConfusion h
    | some cs' =>
        rw [hcs] at h
        cases Option.some.inj h
        obtain ⟨p, v, rest, h1, h2⟩ := ih s cs' hcs
        exact ⟨p, v, rest, h1, h2⟩
  · intro s cs' h
    rw [setFirstLeafPfxL] at h
    exact Option.noConfusion h
  · intro c rest ihc _ s cs' h
    rw [setFirstLeafPfxL] at h
    cases hc : setFirstLeafPfx c s with
    | none => rw [hc] at h; exact Option.noConfusion h
    | some c' =>
        rw [hc] at h
        cases Option.some.inj h
        obtain ⟨p, v, r, h1, h2⟩ := ihc s c' hc
        exact ⟨p, v, r ++ leavesF rest, by simp [leavesF, h1],
          by simp [leavesF, h2]⟩

theorem setFirstLeafPfx_idem_all :
    (∀ n : Node, ∀ (s : String) (n' : Node), setFirstLeafPfx n s = some n' →
      setFirstLeafPfx n' s = some n') ∧
    (∀ cs : List Node, ∀ (s : String) (cs' : List Node),
      setFirstLeafPfxL cs s = some cs' →
      setFirstLeafPfxL cs' s = some cs') := by
  apply node_forest_ind
  · intro t p v s n' h
    rw [setFirstLeafPfx] at h
    cases Option.some.inj h
    rfl
  · intro t cs ih s n' h
    rw [setFirstLeafPfx] at h
    cases hcs : setFirstLeafPfxL cs s with
    | none => rw [hcs] at h; exact Option.noConfusion h
    | some cs' =>
        rw [hcs] at h
        cases Option.some.inj h
        rw [setFirstLeafPfx, ih s cs' hcs]
  · intro s cs' h
    rw [setFirstLeafPfxL] at h
    exact Option.noConfusion h
  · intro c rest ihc _ s cs' h
    rw [setFirstLeafPfxL] at h
    cases hc : setFirstLeafPfx c s with
    | none => rw [hc] at h; exact Option.noConfusion h
    | some c' =>
        rw [hc] at h
        cases Option.some.inj h
        rw [setFirstLeafPfxL, ihc s c' hc]

theorem setFirstLeafPfx_typ {n n' : Node} {s : String}
    (h : setFirstLeafPfx n s = some n') : n'.typ = n.typ := by
  cases n with
  | leaf t p v =>
      rw [setFirstLeafPfx] at h
      cases Option.some.inj h
      rfl
  | node t cs =>
      rw [setFirstLeafPfx] at h
      cases hcs : setFirstLeafPfxL cs s with
      | none => rw [hcs] at h; exact Option.noConfusion h
      | some cs' =>
          rw [hcs] at h
          cases Option.some.inj h
          rfl

theorem setFirstLeafPfx_node_cons {t : String} {c0 : Node} {tail : List Node}
    {s : String} {n' : Node}
    (h : setFirstLeafPfx (.node t (c0 :: tail)) s = some n') :
    ∃ c0', setFirstLeafPfx c0 s = some c0' ∧ n' = .node t (c0' :: tail) := by
  rw [setFirstLeafPfx, setFirstLeafPfxL] at h
  cases hc : setFirstLeafPfx c0 s with
  | none => rw [hc] at h; exact Option.noConfusion h
  | some c0' =>
      rw [hc] at h
      exact ⟨c0', rfl, (Option.some.inj h).symm⟩

theorem setFirstLeafPfx_node_none {t : String} {s : String} {n' : Node}
    (h : setFirstLeafPfx (.node t []) s = some n') : False := by
  rw [setFirstLeafPfx, setFirstLeafPfxL] at h
  exact Option.noConfusion h

theorem replaceDocInStmt_frame {v : String} {m m' : Node}
    (h : replaceDocInStmt v m = .repl m') :
    ∃ p v0 rest, Node.leaves m = (p, v0) :: rest ∧
      Node.leaves m' = (p, v) :: rest := by
  cases m with
  | leaf t p w =>
      simp only [replaceDocInStmt] at h
      split_ifs at h <;> try exact StmtDoc.noConfusion h
      cases StmtDoc.repl.inj h
      exact ⟨p, w, [], rfl, rfl⟩
  | node t cs =>
      cases cs with
      | nil =>
          simp only [replaceDocInStmt] at h
          split_ifs at h <;> exact StmtDoc.noConfusion h
      | cons c rest =>
          cases c with
          | leaf ct cp cw =>
              simp only [replaceDocInStmt] at h
              split_ifs at h <;> try exact StmtDoc.noConfusion h
              cases StmtDoc.repl.inj h
              exact ⟨cp, cw, leavesF rest, by simp [Node.leaves, leavesF],
                by simp [Node.leaves, leavesF]⟩
          | node ct ck =>
              simp only [replaceDocInStmt] at h
              split_ifs at h <;> exact StmtDoc.noConfusion h

theorem replaceDocInStmt_idem {v : String} {m m' : Node}
    (h : replaceDocInStmt v m = .repl m') :
    replaceDocInStmt v m' = .repl m' := by
  cases m with
  | leaf t p w =>
      simp only [replaceDocInStmt] at h
      split_ifs at h with h1 h2 <;> try exact StmtDoc.noConfusion h
      cases StmtDoc.repl.inj h
      simp only [replaceDocInStmt]
      rw [if_neg h1, if_pos h2]
  | node t cs =>
      cases cs with
      | nil =>
          simp only [replaceDocInStmt] at h
          split_ifs at h <;> exact StmtDoc.noConfusion h
      | cons c rest =>
          cases c with
          | leaf ct cp cw =>
              simp only [replaceDocInStmt] at h
              split_ifs at h with h1 h2 <;> try exact StmtDoc.noConfusion h
              cases StmtDoc.repl.inj h
              simp only [replaceDocInStmt]
              rw [if_pos h1, if_pos h2]
          | node ct ck =>
              simp only [replaceDocInStmt] at h
              split_ifs at h <;> exact StmtDoc.noConfusion h

theorem replaceDocInStmt_noDoc_sflp {v s : String} {m m' : Node}
    (hnd : replaceDocInStmt v m = .noDoc)
    (hs : setFirstLeafPfx m s = some m') :
    replaceDocInStmt v m' = .noDoc := by
  cases m with
  | leaf t p w =>
      rw [setFirstLeafPfx] at hs
      cases Option.some.inj hs
      simp only [replaceDocInStmt] at hnd ⊢
      split_ifs at hnd ⊢ <;> try exact StmtDoc.noConfusion hnd
      rfl
  | node t cs =>
      cases cs with
      | nil => exact absurd hs (fun hh => setFirstLeafPfx_node_none hh)
      | cons c0 tail =>
          obtain ⟨c0', hc0, rfl⟩ := setFirstLeafPfx_node_cons hs
          cases c0 with
          | leaf ct cp cw =>
              rw [setFirstLeafPfx] at hc0
              cases Option.some.inj hc0
              simp only [replaceDocInStmt] at hnd ⊢
              split_ifs at hnd ⊢ <;> try exact StmtDoc.noConfusion hnd
              all_goals rfl
          | node ct ck =>
              have hc0' : ∃ ck', c0' = Node.node ct ck' := by
                rw [setFirstLeafPfx] at hc0
                cases hck : setFirstLeafPfxL ck s with
                | none => rw [hck] at hc0; exact Option.noConfusion hc0
                | some ck' =>
                    rw [hck] at hc0
                    exact ⟨ck', (Option.some.inj hc0).symm⟩
              obtain ⟨ck', rfl⟩ := hc0'
              simp only [replaceDocInStmt] at hnd ⊢
              split_ifs at hnd ⊢ <;> try exact StmtDoc.noConfusion hnd
              all_goals rfl

theorem replaceDocInStmt_typ {v : String} {m m' : Node}
    (h : replaceDocInStmt v m = .repl m') : m'.typ = m.typ := by
  cases m with
  | leaf t p w =>
      simp only [replaceDocInStmt] at h
      split_ifs at h <;> try exact StmtDoc.noConfusion h
      cases StmtDoc.repl.inj h
      rfl
  | node t cs =>
      cases cs with
      | nil =>
          simp only [replaceDocInStmt] at h
          split_ifs at h <;> exact StmtDoc.noConfusion h
      | cons c rest =>
          cases c with
          | leaf ct cp cw =>
              simp only [replaceDocInStmt] at h
              split_ifs at h <;> try exact StmtDoc.noConfusion h
              cases StmtDoc.repl.inj h
              rfl
          | node ct ck =>
              simp only [replaceDocInStmt] at h
              split_ifs at h <;> exact StmtDoc.noConfusion h

/-- Inversion of one docstring mutation on a class node: the branch taken
and the resulting rebuilt node. -/
theorem mutateClass_cases {t : String} {cs : List Node} {doc : String}
    {cls' : Node} (h : mutateClass (.node t cs) doc = some cls') :
    ∃ i n1, colonIdx cs = some i ∧ cs.get? (i + 1) = some n1 ∧
      ((∃ nt ncs m m', n1 = Node.node nt ncs ∧ (n1.typ == "suite") = true ∧
          ncs.get? 1 = some m ∧
          replaceDocInStmt (mkDocVal doc) m = .repl m' ∧
          cls' = .node t (cs.set (i + 1) (.node nt (ncs.set 1 m')))) ∨
       ((n1.typ == "suite") = false ∧
          ∃ n1', replaceDocInStmt (mkDocVal doc) n1 = .repl n1' ∧
            cls' = .node t (cs.set (i + 1) n1')) ∨
       (∃ lastC l', cs.getLast? = some lastC ∧
          setFirstLeafPfx lastC (insertPfxString doc) = some l' ∧
          cls' = .node t (cs.set (cs.length - 1) l') ∧
          ((∃ nt ncs m, n1 = Node.node nt ncs ∧ (n1.typ == "suite") = true ∧
              ncs.get? 1 = some m ∧
              replaceDocInStmt (mkDocVal doc) m = .noDoc) ∨
           ((n1.typ == "suite") = false ∧
              replaceDocInStmt (mkDocVal doc) n1 = .noDoc)))) := by
  have hins : ∀ P : Prop, ∀ h' : insertDoc t cs doc = some cls',
      (∀ lastC l', cs.getLast? = some lastC →
        setFirstLeafPfx lastC (insertPfxString doc) = some l' →
        cls' = .node t (cs.set (cs.length - 1) l') → P) → P := by
    intro P h' k
    rw [insertDoc] at h'
    cases hl : cs.getLast? with
    | none =>
        simp only [hl] at h'
        exact Option.noConfusion h'
    | some lastC =>
        simp only [hl] at h'
        cases hs : setFirstLeafPfx lastC (insertPfxString doc) with
        | none =>
            simp only [hs] at h'
            exact Option.noConfusion h'
        | some l' =>
            simp only [hs] at h'
            exact k lastC l' hl hs (Option.some.inj h').symm
  rw [mutateClass] at h
  cases hci : colonIdx cs with
  | none =>
      simp only [hci] at h
      exact Option.noConfusion h
  | some i =>
      simp only [hci] at h
      cases hg : cs.get? (i + 1) with
      | none =>
          simp only [hg] at h
          exact Option.noConfusion h
      | some n1 =>
          simp only [hg] at h
          refine ⟨i, n1, rfl, hg, ?_⟩
          by_cases hsuite : (n1.typ == "suite") = true
          · rw [if_pos hsuite] at h
            cases n1 with
            | leaf a b c => exact Option.noConfusion h
            | node nt ncs =>
                cases hg1 : ncs.get? 1 with
                | none =>
                    simp only [hg1] at h
                    exact Option.noConfusion h
                | some m =>
                    simp only [hg1] at h
                    cases hrd : replaceDocInStmt (mkDocVal doc) m with
                    | libErr =>
                        simp only [hrd] at h
                        exact Option.noConfusion h
                    | repl m' =>
                        simp only [hrd] at h
                        exact Or.inl ⟨nt, ncs, m, m', rfl, hsuite, hg1, hrd,
                          (Option.some.inj h).symm⟩
                    | noDoc =>
                        simp only [hrd] at h
                        refine hins _ h fun lastC l' hl hs hcl => ?_
                        exact Or.inr (Or.inr ⟨lastC, l', hl, hs, hcl,
                          Or.inl ⟨nt, ncs, m, rfl, hsuite, hg1, hrd⟩⟩)
          · rw [if_neg hsuite] at h
            cases hrd : replaceDocInStmt (mkDocVal doc) n1 with
            | libErr =>
                simp only [hrd] at h
                exact Option.noConfusion h
            | repl n1' =>
                simp only [hrd] at h
                exact Or.inr (Or.inl ⟨by simpa using hsuite, n1', rfl,
                  (Option.some.inj h).symm⟩)
            | noDoc =>
                simp only [hrd] at h
                refine hins _ h fun lastC l' hl hs hcl => ?_
                exact Or.inr (Or.inr ⟨lastC, l', hl, hs, hcl,
                  Or.inr ⟨by simpa using hsuite, rfl⟩⟩)

theorem mutateClass_idem {cls cls' : Node} {doc : String}
    (h : mutateClass cls doc = some cls') :
    mutateClass cls' doc = some cls' := by
  cases cls with
  | leaf a b c => rw [mutateClass] at h; exact Option.noConfusion h
  | node t cs =>
      obtain ⟨i, n1, hci, hg, hbr⟩ := mutateClass_cases h
      have hlen : i + 1 < cs.length := get?_some_lt hg
      rcases hbr with ⟨nt, ncs, m, m', rfl, hsuite, hg1, hrd, rfl⟩ |
        ⟨hnsuite, n1', hrd, rfl⟩ |
        ⟨lastC, l', hl, hs, rfl, hnav⟩
      · -- suite replace
        have hsuite' : (nt == "suite") = true := by simpa [Node.typ] using hsuite
        have hlen1 : 1 < ncs.length := get?_some_lt hg1
        have hci' : colonIdx (cs.set (i + 1) (Node.node nt (ncs.set 1 m')))
            = some i := colonIdx_set_of_lt cs i (i + 1) _ hci (by omega)
        have hg' : (cs.set (i + 1) (Node.node nt (ncs.set 1 m'))).get? (i + 1)
            = some (Node.node nt (ncs.set 1 m')) :=
          List.get?_set_eq_of_lt _ (by simpa using hlen)
        have hg1' : (ncs.set 1 m').get? 1 = some m' :=
          List.get?_set_eq_of_lt _ (by simpa using hlen1)
        have hrd' := replaceDocInStmt_idem hrd
        rw [mutateClass]
        simp only [hci', hg', Node.typ, hsuite', if_true, hg1', hrd',
          List.set_set, List.length_set]
      · -- direct replace
        have hci' : colonIdx (cs.set (i + 1) n1') = some i :=
          colonIdx_set_of_lt cs i (i + 1) _ hci (by omega)
        have hg' : (cs.set (i + 1) n1').get? (i + 1) = some n1' :=
          List.get?_set_eq_of_lt _ (by simpa using hlen)
        have hnsuite' : (n1'.typ == "suite") = false := by
          rw [replaceDocInStmt_typ hrd]
          simpa using hnsuite
        have hrd' := replaceDocInStmt_idem hrd
        rw [mutateClass]
        simp only [hci', hg', hnsuite', Bool.false_eq_true, if_false, hrd',
          List.set_set, List.length_set]
      · -- insert
        have hne : cs ≠ [] := by
          intro h0
          subst h0
          simp at hlen
        have hgl : cs.get? (cs.length - 1) = some lastC := by
          rw [← List.getLast?_eq_get?]
          exact hl
        have hci' : colonIdx (cs.set (cs.length - 1) l') = some i :=
          colonIdx_set_of_lt cs i (cs.length - 1) _ hci (by omega)
        have hl' : (cs.set (cs.length - 1) l').getLast? = some l' :=
          getLast?_set_last hne l'
        have hs' : setFirstLeafPfx l' (insertPfxString doc) = some l' :=
          setFirstLeafPfx_idem_all.1 lastC (insertPfxString doc) l' hs
        have hrebuild :
            insertDoc t (cs.set (cs.length - 1) l') doc
              = some (Node.node t (cs.set (cs.length - 1) l')) := by
          rw [insertDoc]
          simp only [hl', hs', List.length_set, List.set_set]
        rcases Nat.lt_or_ge (i + 1) (cs.length - 1) with hlt | hge
        · -- the suite is not the mutated last child
          have hg' : (cs.set (cs.length - 1) l').get? (i + 1) = some n1 := by
            rw [List.get?_set_ne _ _ (by omega)]
            exact hg
          rcases hnav with ⟨nt, ncs, m, rfl, hsuite, hg1, hrd⟩ | ⟨hnsuite, hrd⟩
          · have hsuite' : (nt == "suite") = true := hsuite
            rw [mutateClass]
            simp only [hci', hg', Node.typ, hsuite', if_true, hg1, hrd,
              hrebuild]
          · rw [mutateClass]
            simp only [hci', hg', hnsuite, Bool.false_eq_true, if_false, hrd,
              hrebuild]
        · -- the suite is the mutated last child
          have heq : i + 1 = cs.length - 1 := by omega
          have hlast : lastC = n1 := by
            rw [← heq] at hgl
            rw [hg] at hgl
            exact (Option.some.inj hgl).symm
          subst hlast
          have hg' : (cs.set (cs.length - 1) l').get? (i + 1) = some l' := by
            rw [heq]
            exact List.get?_set_eq_of_lt _ (by omega)
          rcases hnav with ⟨nt, ncs, m, rfl, hsuite, hg1, hrd⟩ | ⟨hnsuite, hrd⟩
          · -- suite-shaped last child: the prefix rewrite keeps children[1]
            cases ncs with
            | nil => simp at hg1
            | cons c0 tail =>
                obtain ⟨c0', hc0, rfl⟩ := setFirstLeafPfx_node_cons hs
                have hg1' : (c0' :: tail).get? 1 = some m := by
                  simpa using hg1
                have hsuite' : (nt == "suite") = true := hsuite
                rw [mutateClass]
                simp only [hci', hg', Node.typ, hsuite', if_true, hg1', hrd,
                  hrebuild]
          · -- non-suite last child: prefix rewrite preserves type and noDoc
            have htyp : (l'.typ == "suite") = false := by
              rw [setFirstLeafPfx_typ hs]
              simpa using hnsuite
            have hrd' := replaceDocInStmt_noDoc_sflp hrd hs
            rw [mutateClass]
            simp only [hci', hg', htyp, Bool.false_eq_true, if_false, hrd',
              hrebuild]

theorem mutateClass_keep {t : String} {cs : List Node} {doc : String}
    {cls' : Node} (h : mutateClass (.node t cs) doc = some cls')
    (hhead : ∀ c0 rest0, cs = c0 :: rest0 → isColonLeaf c0 = false) :
    ∃ cs'', cls' = .node t cs'' ∧ cs''.get? 1 = cs.get? 1 := by
  obtain ⟨i, n1, hci, hg, hbr⟩ := mutateClass_cases h
  have hipos : 1 ≤ i := by
    cases cs with
    | nil => simp [colonIdx] at hci
    | cons c0 rest0 => exact colonIdx_pos (hhead c0 rest0 rfl) hci
  have hlen : i + 1 < cs.length := get?_some_lt hg
  rcases hbr with ⟨nt, ncs, m, m', rfl, _, _, _, rfl⟩ | ⟨_, n1', _, rfl⟩ |
    ⟨lastC, l', _, _, rfl, _⟩
  · exact ⟨_, rfl, List.get?_set_ne _ _ (by omega)⟩
  · exact ⟨_, rfl, List.get?_set_ne _ _ (by omega)⟩
  · exact ⟨_, rfl, List.get?_set_ne _ _ (by omega)⟩

theorem mutateClass_frame {t : String} {cs : List Node} {doc : String}
    {cls' : Node} (h : mutateClass (.node t cs) doc = some cls') :
    ∃ pre p v post,
      leavesF cs = pre ++ (p, v) :: post ∧
      (Node.leaves cls' = pre ++ (p, mkDocVal doc) :: post ∨
       Node.leaves cls' = pre ++ (insertPfxString doc, v) :: post) := by
  obtain ⟨i, n1, hci, hg, hbr⟩ := mutateClass_cases h
  rcases hbr with ⟨nt, ncs, m, m', rfl, hsuite, hg1, hrd, rfl⟩ |
    ⟨hnsuite, n1', hrd, rfl⟩ | ⟨lastC, l', hl, hs, rfl, hnav⟩
  · obtain ⟨hnew, hold⟩ := leavesF_set cs (i + 1) (Node.node nt (ncs.set 1 m')) _ hg
    obtain ⟨hnew1, hold1⟩ := leavesF_set ncs 1 m' m hg1
    obtain ⟨p, v0, r, hm, hm'⟩ := replaceDocInStmt_frame hrd
    refine ⟨leavesF (cs.take (i + 1)) ++ leavesF (ncs.take 1), p, v0,
      r ++ leavesF (ncs.drop 2) ++ leavesF (cs.drop (i + 2)), ?_, Or.inl ?_⟩
    · rw [hold]
      simp [Node.leaves, hold1, hm, List.append_assoc]
    · simp [Node.leaves, hnew, hnew1, hm', List.append_assoc]
  · obtain ⟨hnew, hold⟩ := leavesF_set cs (i + 1) n1' n1 hg
    obtain ⟨p, v0, r, hm, hm'⟩ := replaceDocInStmt_frame hrd
    refine ⟨leavesF (cs.take (i + 1)), p, v0,
      r ++ leavesF (cs.drop (i + 2)), ?_, Or.inl ?_⟩
    · rw [hold]
      simp [hm, List.append_assoc]
    · simp [Node.leaves, hnew, hm', List.append_assoc]
  · have hgl : cs.get? (cs.length - 1) = some lastC := by
      rw [← List.getLast?_eq_get?]
      exact hl
    obtain ⟨hnew, hold⟩ := leavesF_set cs (cs.length - 1) l' lastC hgl
    obtain ⟨p, v0, r, hm, hm'⟩ := setFirstLeafPfx_frame_all.1 lastC _ l' hs
    refine ⟨leavesF (cs.take (cs.length - 1)), p, v0,
      r ++ leavesF (cs.drop (cs.length - 1 + 1)), ?_, Or.inr ?_⟩
    · rw [hold]
      simp [hm, List.append_assoc]
    · simp [Node.leaves, hnew, hm', List.append_assoc]

theorem funcContainers_ne_classdef {t : String}
    (h : FUNC_CONTAINERS.contains t = true) : (t == "classdef") = false := by
  have hm : t ∈ FUNC_CONTAINERS := by simpa [List.elem_iff] using h
  simp [FUNC_CONTAINERS, FLOW_CONTAINERS, List.mem_cons] at hm
  rcases hm with rfl | rfl | rfl | rfl | rfl | rfl | rfl | rfl | rfl | rfl |
    rfl <;> rfl

theorem isMatchingClassdef_leaf (t p v cn : String) :
    isMatchingClassdef (.leaf t p v) cn = false := by
  simp [isMatchingClassdef, Node.children]

theorem mutateElem_leaf_not_ok {t p v cn doc : String} {n' : Node}
    (h : mutateElem cn doc (.leaf t p v) = .ok n') : False := by
  rw [mutateElem, isMatchingClassdef_leaf] at h
  simp at h

theorem mutateForest_frame_all (cn doc : String) :
    (∀ n : Node, ∀ n', mutateElem cn doc n = .ok n' →
      ∃ pre p v post, Node.leaves n = pre ++ (p, v) :: post ∧
        (Node.leaves n' = pre ++ (p, mkDocVal doc) :: post ∨
         Node.leaves n' = pre ++ (insertPfxString doc, v) :: post)) ∧
    (∀ cs : List Node, ∀ cs', mutateForest cn doc cs = .ok cs' →
      ∃ pre p v post, leavesF cs = pre ++ (p, v) :: post ∧
        (leavesF cs' = pre ++ (p, mkDocVal doc) :: post ∨
         leavesF cs' = pre ++ (insertPfxString doc, v) :: post)) := by
  apply node_forest_ind
  · intro t p v n' h
    exact absurd h (fun hh => mutateElem_leaf_not_ok hh)
  · intro t cs ih n' h
    rw [mutateElem] at h
    by_cases hm : isMatchingClassdef (.node t cs) cn = true
    · rw [if_pos hm] at h
      cases hc : mutateClass (.node t cs) doc with
      | none => rw [hc] at h; exact MutResN.noConfusion h
      | some c' =>
          simp only [hc] at h
          cases MutResN.ok.inj h
          obtain ⟨pre, p, v, post, h1, h2⟩ := mutateClass_frame hc
          exact ⟨pre, p, v, post, by simpa [Node.leaves] using h1, h2⟩
    · rw [if_neg hm] at h
      by_cases hcont : FUNC_CONTAINERS.contains t = true
      · rw [if_pos hcont] at h
        cases hf : mutateForest cn doc cs with
        | notFound => rw [hf] at h; exact MutResN.noConfusion h
        | err => rw [hf] at h; exact MutResN.noConfusion h
        | ok k' =>
            simp only [hf] at h
            cases MutResN.ok.inj h
            obtain ⟨pre, p, v, post, h1, h2⟩ := ih k' hf
            refine ⟨pre, p, v, post, by simpa [Node.leaves] using h1, ?_⟩
            simpa [Node.leaves] using h2
      · rw [if_neg hcont] at h
        exact MutResN.noConfusion h
  · intro cs' h
    rw [mutateForest] at h
    exact MutRes.noConfusion h
  · intro c rest ihc ihrest cs' h
    rw [mutateForest] at h
    cases he : mutateElem cn doc c with
    | err => rw [he] at h; exact MutRes.noConfusion h
    | ok c' =>
        simp only [he] at h
        cases MutRes.ok.inj h
        obtain ⟨pre, p, v, post, h1, h2⟩ := ihc c' he
        refine ⟨pre, p, v, post ++ leavesF rest, ?_, ?_⟩
        · simp [leavesF, h1, List.append_assoc]
        · rcases h2 with h2 | h2
          · exact Or.inl (by simp [leavesF, h2, List.append_assoc])
          · exact Or.inr (by simp [leavesF, h2, List.append_assoc])
    | notFound =>
        simp only [he] at h
        cases hf : mutateForest cn doc rest with
        | notFound => rw [hf] at h; exact MutRes.noConfusion h
        | err => rw [hf] at h; exact MutRes.noConfusion h
        | ok rest' =>
            simp only [hf] at h
            cases MutRes.ok.inj h
            obtain ⟨pre, p, v, post, h1, h2⟩ := ihrest rest' hf
            refine ⟨Node.leaves c ++ pre, p, v, post, ?_, ?_⟩
            · simp [leavesF, h1, List.append_assoc]
            · rcases h2 with h2 | h2
              · exact Or.inl (by simp [leavesF, h2, List.append_assoc])
              · exact Or.inr (by simp [leavesF, h2, List.append_assoc])

theorem mutateForest_idem_all (cn doc : String) :
    (∀ n : Node, classdefShapedN n = true → ∀ n',
      mutateElem cn doc n = .ok n' → mutateElem cn doc n' = .ok n') ∧
    (∀ cs : List Node, classdefShapedF cs = true → ∀ cs',
      mutateForest cn doc cs = .ok cs' → mutateForest cn doc cs' = .ok cs') := by
  apply node_forest_ind
  · intro t p v _ n' h
    exact absurd h (fun hh => mutateElem_leaf_not_ok hh)
  · intro t cs ih hshape n' h
    rw [classdefShapedN, Bool.and_eq_true] at hshape
    obtain ⟨hsh1, hsh2⟩ := hshape
    rw [mutateElem] at h
    by_cases hm : isMatchingClassdef (.node t cs) cn = true
    · rw [if_pos hm] at h
      cases hc : mutateClass (.node t cs) doc with
      | none => rw [hc] at h; exact MutResN.noConfusion h
      | some c' =>
          simp only [hc] at h
          cases MutResN.ok.inj h
          have htcd : (t == "classdef") = true := by
            rw [isMatchingClassdef, Bool.and_eq_true] at hm
            exact hm.1
          have hhead : ∀ c0 rest0, cs = c0 :: rest0 → isColonLeaf c0 = false := by
            intro c0 rest0 hcs
            subst hcs
            rw [if_pos htcd] at hsh1
            simpa using hsh1
          obtain ⟨cs'', rfl, hkeep⟩ := mutateClass_keep hc hhead
          have hm' : isMatchingClassdef (.node t cs'') cn = true := by
            rw [isMatchingClassdef] at hm ⊢
            simp only [Node.typ, Node.children] at hm ⊢
            rw [hkeep]
            exact hm
          rw [mutateElem, if_pos hm', mutateClass_idem hc]
    · rw [if_neg hm] at h
      by_cases hcont : FUNC_CONTAINERS.contains t = true
      · rw [if_pos hcont] at h
        cases hf : mutateForest cn doc cs with
        | notFound => rw [hf] at h; exact MutResN.noConfusion h
        | err => rw [hf] at h; exact MutResN.noConfusion h
        | ok k' =>
            simp only [hf] at h
            cases MutResN.ok.inj h
            have hm' : isMatchingClassdef (.node t k') cn = false := by
              rw [isMatchingClassdef]
              simp [Node.typ, funcContainers_ne_classdef hcont]
            rw [mutateElem, if_neg (by simp [hm']), if_pos hcont,
              ih hsh2 k' hf]
      · rw [if_neg hcont] at h
        exact MutResN.noConfusion h
  · intro _ cs' h
    rw [mutateForest] at h
    exact MutRes.noConfusion h
  · intro c rest ihc ihrest hshape cs' h
    rw [classdefShapedF, Bool.and_eq_true] at hshape
    obtain ⟨hsh1, hsh2⟩ := hshape
    rw [mutateForest] at h
    cases he : mutateElem cn doc c with
    | err => rw [he] at h; exact MutRes.noConfusion h
    | ok c' =>
        simp only [he] at h
        cases MutRes.ok.inj h
        rw [mutateForest, ihc hsh1 c' he]
    | notFound =>
        simp only [he] at h
        cases hf : mutateForest cn doc rest with
        | notFound => rw [hf] at h; exact MutRes.noConfusion h
        | err => rw [hf] at h; exact MutRes.noConfusion h
        | ok rest' =>
            simp only [hf] at h
            cases MutRes.ok.inj h
            rw [mutateForest, he, ihrest hsh2 rest' hf]

theorem inScan_nil_iff {t c : List String} {x : Node} :
    InScan t c [] x ↔ False := by
  constructor
  · intro h
    cases h with
    | here hmem _ => exact (List.not_mem_nil _) hmem
    | deeper hmem _ _ => exact (List.not_mem_nil _) hmem
  · intro h
    exact h.elim

theorem inScan_cons_iff {t c : List String} {x hd : Node} {rest : List Node} :
    InScan t c (hd :: rest) x ↔
      (hd.typ ∈ t ∧ x = hd) ∨ (hd.typ ∈ c ∧ InScan t c hd.children x) ∨
        InScan t c rest x := by
  constructor
  · intro h
    cases h with
    | here hmem htyp =>
        rcases List.mem_cons.mp hmem with h1 | h2
        · subst h1; exact Or.inl ⟨htyp, rfl⟩
        · exact Or.inr (Or.inr (InScan.here h2 htyp))
    | deeper hmem htyp hrec =>
        rcases List.mem_cons.mp hmem with h1 | h2
        · subst h1; exact Or.inr (Or.inl ⟨htyp, hrec⟩)
        · exact Or.inr (Or.inr (InScan.deeper h2 htyp hrec))
  · rintro (⟨htyp, rfl⟩ | ⟨htyp, hrec⟩ | htail)
    · exact InScan.here (List.mem_cons_self _ _) htyp
    · exact InScan.deeper (List.mem_cons_self _ _) htyp hrec
    · cases htail with
      | here hmem htyp => exact InScan.here (List.mem_cons_of_mem _ hmem) htyp
      | deeper hmem htyp hrec =>
          exact InScan.deeper (List.mem_cons_of_mem _ hmem) htyp hrec

theorem mem_scanL_iff (targets containers : List String) (cs : List Node)
    (x : Node) :
    x ∈ scanL targets containers cs ↔ InScan targets containers cs x := by
  have key : ∀ (n : Nat) (cs : List Node), sizeF cs ≤ n → ∀ x : Node,
      (x ∈ scanL targets containers cs ↔ InScan targets containers cs x) := by
    intro n
    induction n with
    | zero =>
        intro cs hle x
        cases cs with
        | nil => simp [scanL, inScan_nil_iff]
        | cons hd rest =>
            exfalso
            have h1 := size_pos hd
            simp [sizeF] at hle
            omega
    | succ n ih =>
        intro cs hle x
        cases cs with
        | nil => simp [scanL, inScan_nil_iff]
        | cons hd rest =>
            have hrest := ih rest
              (by have := size_pos hd; simp [sizeF] at hle ⊢; omega) x
            have hchild := ih hd.children
              (by have := sizeF_children_lt hd rest; omega) x
            rw [scanL, List.mem_append, inScan_cons_iff, ← hrest, ← hchild]
            cases hd with
            | leaf t p v =>
                by_cases ht : t ∈ targets <;>
                  simp [scanN, Node.typ, Node.children, scanL, ht,
                    List.elem_iff, inScan_nil_iff, List.contains] <;>
                  tauto
            | node t k =>
                by_cases ht : t ∈ targets <;> by_cases hc : t ∈ containers <;>
                  simp [scanN, Node.typ, Node.children, ht, hc,
                    List.elem_iff, List.contains, scanL] <;> tauto
  exact key (sizeF cs) cs (le_refl _) x

theorem scanPL_typ_mem (targets containers : List String) :
    ∀ (cs : List Node) (par p x : Node),
      (p, x) ∈ scanPL targets containers par cs → x.typ ∈ targets := by
  have key : ∀ (n : Nat) (cs : List Node), sizeF cs ≤ n → ∀ par p x,
      (p, x) ∈ scanPL targets containers par cs → x.typ ∈ targets := by
    intro n
    induction n with
    | zero =>
        intro cs hle par p x hmem
        cases cs with
        | nil => simp [scanPL] at hmem
        | cons hd rest =>
            exfalso
            have h1 := size_pos hd
            simp [sizeF] at hle
            omega
    | succ n ih =>
        intro cs hle par p x hmem
        cases cs with
        | nil => simp [scanPL] at hmem
        | cons hd rest =>
            rw [scanPL, List.mem_append] at hmem
            rcases hmem with hmem | hmem
            · cases hd with
              | leaf t pf v =>
                  simp [scanPN, List.elem_iff, List.contains] at hmem
                  rcases hmem with ⟨h1, _, h3⟩
                  subst h3
                  simpa [Node.typ] using h1
              | node t k =>
                  rw [scanPN, List.mem_append] at hmem
                  rcases hmem with hmem | hmem
                  · simp [List.elem_iff, List.contains] at hmem
                    rcases hmem with ⟨h1, _, h3⟩
                    subst h3
                    simpa [Node.typ] using h1
                  · by_cases hc : containers.contains t
                    · rw [if_pos hc] at hmem
                      refine ih k ?_ _ p x hmem
                      simp [sizeF, Node.size] at hle
                      omega
                    · rw [if_neg hc] at hmem
                      simp at hmem
            · exact ih rest
                (by have := size_pos hd; simp [sizeF] at hle ⊢; omega) par p x hmem
  intro cs par p x
  exact key (sizeF cs) cs (le_refl _) par p x

/-! ## Claim C6 -/

/-- C6 (counterexample): the Recursive Node Scanner does *not* recurse into
every child: on the parse of `x = (__red_end_user_data_statement__)`, the
`atom` child is not in `CONTAINERS_WITHOUT_LOCAL_SCOPE`, so the scan never
descends into it and misses the `name` inside, while the spec's
recurse-into-every-child scan finds both names. -/
theorem C6_counterexample :
    scanRecursively exAtomName.children "name" CONTAINERS_WITHOUT_LOCAL_SCOPE
      = [nm "" "x"] ∧
    scanAllL "name" exAtomName.children
      = [nm "" "x", nm "" "__red_end_user_data_statement__"] :=
  ⟨rfl, rfl⟩

/-- C6 (amended): boundary-set membership controls exactly whether the scan
recurses into a child: a node is produced iff it is reachable as a
target-kind element by descending only into boundary-set-typed elements. -/
theorem C6_scan_characterization (children : List Node) (name : String)
    (containers : List String) (x : Node) :
    x ∈ scanRecursively children name containers ↔
      InScan [name] containers children x :=
  mem_scanL_iff [name] containers children x

/-! ## Claim C7 -/

/-- C7 (counterexample): a class definition nested inside a function body
exists at some scope in the start file, yet step 1 of the Import Resolver
does not find it (`iter_classdefs` recurses only into `_FUNC_CONTAINERS`,
which contains neither `funcdef` nor `classdef`). -/
theorem C7_counterexample :
    specClassAnywhereF "C" exNestedClass.children = true ∧
    findClassNode exNestedClass "C" = none :=
  ⟨rfl, rfl⟩

/-- C7 (amended): step 1 finds a class definition iff one with the searched
name is reachable from the module by descending only through
`_FUNC_CONTAINERS`-typed nodes (suites, flow statements, `simple_stmt`,
`decorated`, `async_funcdef`) — i.e. not nested inside any `funcdef` or
`classdef` body. -/
theorem C7_step1_characterization (tree : Node) (className : String) :
    (findClassNode tree className).isSome ↔
      ∃ n, InScan ["classdef"] FUNC_CONTAINERS tree.children n ∧
        ((n.children.get? 1).map Node.value) = some className := by
  rw [findClassNode, List.find?_isSome]
  constructor
  · rintro ⟨x, hx, hpred⟩
    exact ⟨x, (mem_scanL_iff _ _ _ _).mp hx, by simpa using hpred⟩
  · rintro ⟨x, hin, heq⟩
    exact ⟨x, (mem_scanL_iff _ _ _ _).mpr hin, by simpa using heq⟩

/-! ## Claim C9 -/

/-- C9 (counterexample): on the parse of
`x = (__red_end_user_data_statement__)`, the marker name occurs at module
scope reachable without crossing any function or class body (it sits inside
a parenthesized expression), yet the Marker Auditor still reports exactly
one missing-marker finding, because the `atom` node is not in its boundary
set. -/
theorem C9_counterexample :
    specMarkerReachableF markerName exAtomName.children = true ∧
    markerFindings "pkg" exAtomName = [Finding.missingMarker "pkg"] :=
  ⟨rfl, rfl⟩

/-- C9 (amended): the Marker Auditor reports zero findings iff a `name`
node with the marker value is reachable by descending only through
`CONTAINERS_WITHOUT_LOCAL_SCOPE`-typed nodes (which covers module-level
`with` blocks but not, e.g., parenthesized expressions), and exactly one
missing-marker finding otherwise. -/
theorem C9_marker_characterization (pkgName : String) (entry : Node) :
    (markerFindings pkgName entry = [] ↔
      ∃ x, InScan ["name"] CONTAINERS_WITHOUT_LOCAL_SCOPE entry.children x ∧
        x.value = markerName) ∧
    (markerFindings pkgName entry = [Finding.missingMarker pkgName] ↔
      ¬ ∃ x, InScan ["name"] CONTAINERS_WITHOUT_LOCAL_SCOPE entry.children x ∧
        x.value = markerName) := by
  have hchar : hasEndUserDataStatement entry = true ↔
      ∃ x, InScan ["name"] CONTAINERS_WITHOUT_LOCAL_SCOPE entry.children x ∧
        x.value = markerName := by
    rw [hasEndUserDataStatement, scanRecursively, List.any_eq_true]
    constructor
    · rintro ⟨x, hx, hv⟩
      exact ⟨x, (mem_scanL_iff _ _ _ _).mp hx, by simpa using hv⟩
    · rintro ⟨x, hin, hv⟩
      exact ⟨x, (mem_scanL_iff _ _ _ _).mpr hin, by simpa using hv⟩
  by_cases hb : hasEndUserDataStatement entry
  · refine ⟨?_, ?_⟩ <;> simp [markerFindings, hb] <;> exact hchar.mp hb
  · have hnex : ¬ ∃ x,
        InScan ["name"] CONTAINERS_WITHOUT_LOCAL_SCOPE entry.children x ∧
          x.value = markerName := fun hex => hb (hchar.mpr hex)
    refine ⟨?_, ?_⟩ <;> simp [markerFindings, hb] <;> simpa using hnex

/-! ## Claim C4 -/

/-- C4 (counterexample): a function carrying the bare decorator `@command`
is *not* classified as command-like: the computed match key is `command`,
but the code compares against `{".command", ".group"}` (the joined
dotted-name children keep their dots), so the bare name never matches, and
the async command file with that decorator and no docstring yields zero
findings. -/
theorem C4_counterexample :
    decoName exBareDeco = .ok "command" ∧
    findCommandDeco [exBareDeco] = .ok false ∧
    auditFile exBareDecoAsync = .ok [] :=
  ⟨rfl, rfl, rfl⟩

/-- C4 (amended): when every decorator has a well-formed name, a function
definition is classified command-like iff some decorator's computed key —
for a dotted path, the concatenation of all `dotted_name` children after
the first, dots included — is exactly `.command` or `.group`; a bare-name
decorator can never match since the keys start with a dot. -/
theorem C4_match_key (ds : List Node)
    (h : ∀ d ∈ ds, ∃ s, decoName d = .ok s) :
    findCommandDeco ds = .ok true ↔
      ∃ d ∈ ds, decoName d = .ok ".command" ∨ decoName d = .ok ".group" := by
  induction ds with
  | nil => simp [findCommandDeco]
  | cons d rest ih =>
      obtain ⟨s, hs⟩ := h d (List.mem_cons_self _ _)
      rw [findCommandDeco, hs]
      by_cases hcmd : (s == ".command" || s == ".group") = true
      · constructor
        · intro _
          refine ⟨d, List.mem_cons_self _ _, ?_⟩
          rcases Bool.or_eq_true_iff.mp hcmd with h1 | h1
          · exact Or.inl (by rw [hs, beq_iff_eq.mp h1])
          · exact Or.inr (by rw [hs, beq_iff_eq.mp h1])
        · intro _
          simp [hcmd]
      · have hcmd' : (s == ".command" || s == ".group") = false := by
          simpa using hcmd
        simp only [hcmd', Bool.false_eq_true, if_false]
        rw [ih (fun x hx => h x (List.mem_cons_of_mem _ hx))]
        constructor
        · rintro ⟨x, hx, hk⟩
          exact ⟨x, List.mem_cons_of_mem _ hx, hk⟩
        · rintro ⟨x, hx, hk⟩
          rcases List.mem_cons.mp hx with rfl | hx'
          · exfalso
            rcases hk with hk | hk
            · rw [hs] at hk
              simp only [Except.ok.injEq] at hk
              subst hk
              simp at hcmd
            · rw [hs] at hk
              simp only [Except.ok.injEq] at hk
              subst hk
              simp at hcmd
          · exact ⟨x, hx', hk⟩

/-- C4 (witness): the dotted decorator `@commands.command()` is classified
command-like, matching the amended rule with key `.command`. -/
theorem C4_match_key_witness :
    (∀ d ∈ [exDottedDeco], ∃ s, decoName d = .ok s) ∧
    findCommandDeco [exDottedDeco] = .ok true :=
  ⟨fun d hd => by
      rcases List.mem_singleton.mp hd with rfl
      exact ⟨".command", rfl⟩,
   (C4_match_key [exDottedDeco]
      (fun d hd => by
        rcases List.mem_singleton.mp hd with rfl
        exact ⟨".command", rfl⟩)).mpr
     ⟨exDottedDeco, List.mem_singleton.mpr rfl, Or.inl rfl⟩⟩

/-! ## Claim C5 -/

/-- C5 (counterexample): a *synchronous* command-like function definition —
decorated with `@commands.command()`, whose key `.command` does match — and
lacking docstring and marker produces zero findings: the auditor scans only
for `async_funcdef` nodes, and a plain `funcdef` is never audited. -/
theorem C5_counterexample :
    (scanRecursively exDecoSync.children "funcdef" CONTAINERS).length = 1 ∧
    decoName exDottedDeco = .ok ".command" ∧
    auditFile exDecoSync = .ok [] :=
  ⟨rfl, rfl, rfl⟩

/-- C5 (amended): every node the Docstring Auditor's scan yields is an
`async_funcdef`; for each scanned async command-like function definition
that lacks a docstring node and lacks the ignore marker, the auditor
reports exactly one missing-docstring finding. -/
theorem C5_async_only (root p n : Node)
    (hmem : (p, n) ∈ scanPL ["async_funcdef"] CONTAINERS root root.children) :
    n.typ = "async_funcdef" ∧
    (∀ fd d0 t0 p0 v0,
      n.children.getLast? = some fd →
      (getDecorators p n).head? = some d0 →
      d0.children.head? = some (Node.leaf t0 p0 v0) →
      (splitPrefixComments p0).any (fun c => c == ignoreComment) = false →
      findCommandDeco (getDecorators p n) = .ok true →
      getDocNode fd = some none →
      auditNode p n = .ok [.missingDocstring (fnName fd)]) := by
  constructor
  · have := scanPL_typ_mem ["async_funcdef"] CONTAINERS root.children root p n hmem
    simpa using this
  · intro fd d0 t0 p0 v0 hlast hhead hat hign hcmd hdoc
    simp [auditNode, hlast, hhead, hat, hign, hcmd, hdoc]

/-- C5 (witness): the async command `@commands.command() async def f` with
no docstring yields exactly its one missing-docstring finding. -/
theorem C5_async_only_witness :
    auditNode (Node.node "decorated"
        [exDottedDeco, Node.node "async_funcdef" [kw "" "async", funcdefNode " " "f"]])
      (Node.node "async_funcdef" [kw "" "async", funcdefNode " " "f"])
      = .ok [.missingDocstring "f"] :=
  (C5_async_only exDecoAsync _ _ (List.mem_singleton.mpr rfl)).2
    (funcdefNode " " "f") exDottedDeco "operator" "" "@" rfl rfl rfl rfl rfl rfl

/-! ## Claim C10 -/

/-- C10 (counterexample): a scanned file containing an async function
definition with no decorators does *not* make the auditor raise: an
undecorated async function parses as an `async_stmt` node (its `funcdef` is
there, as the funcdef-scan shows), the `async_funcdef` scan yields nothing,
and the audit completes with zero findings instead of an IndexError. -/
theorem C10_counterexample :
    scanRecursively exBareAsync.children "async_funcdef" CONTAINERS = [] ∧
    scanRecursively exBareAsync.children "funcdef" CONTAINERS
      = [funcdefNode " " "f"] ∧
    auditFile exBareAsync = .ok [] :=
  ⟨rfl, rfl, rfl⟩

/-- C10 (amended): the unconditional `decorators[0]` read is safe on
parser-produced files because every scanned `async_funcdef` sits under a
`decorated` node with a nonempty decorator list; an undecorated async
function (an `async_stmt`) is skipped by the scan and the rest of the file
is audited normally — here the bare `async def f` is skipped and the
decorated command `g` still yields its missing-docstring finding. -/
theorem C10_no_indexerror :
    auditFile exBareAsyncPlusCmd = .ok [.missingDocstring "g"] :=
  rfl

/-! ## Claim C3 -/

/-- C3: when the start file contains neither a matching class definition
nor a matching import, the resolver loop never terminates: the `while
True:` body re-reads the same path forever, and no
MissingClassDefinitionError exists in the code to be raised. -/
theorem C3_resolver_diverges (tree : Node) (pkg className : String)
    (h1 : findClassNode tree className = none)
    (h2 : findMatchingImport tree className = none) :
    ∀ fuel : Nat,
      resolveLoop [(entryPath pkg, tree)] pkg className fuel (entryPath pkg)
        = none := by
  intro fuel
  induction fuel with
  | zero => rfl
  | succ n ih =>
      have hl : lookupFile [(entryPath pkg, tree)] (entryPath pkg)
          = some tree := by
        simp [lookupFile]
      rw [resolveLoop]
      simp only [hl, h1, h2, Option.isSome_none, Bool.false_eq_true, if_false]
      exact ih

/-- C3 (witness): a package whose `__init__.py` is empty: the resolver
finds neither class nor import and diverges (here: any fuel up to 5 is
exhausted without an answer). -/
theorem C3_resolver_diverges_witness :
    findClassNode exEmptyModule "Cls" = none ∧
    findMatchingImport exEmptyModule "Cls" = none ∧
    resolveLoop [(entryPath "badpkg", exEmptyModule)] "badpkg" "Cls" 5
      (entryPath "badpkg") = none :=
  ⟨rfl, rfl, C3_resolver_diverges exEmptyModule "badpkg" "Cls" rfl rfl 5⟩

/-! ## Claim C2 -/

/-- C2: `main` discards the auditors' return codes: with a package whose
command module contains one async command missing its docstring, the
command audit reports the finding (return code 1), yet the run's overall
verdict is `0` (pass) — pass is *not* equivalent to zero findings. -/
theorem C2_verdict_ignores_findings :
    checkCommandDocstrings exFS exCogs = .ok 1 ∧
    mainVerdict 3 0 exFS exCogs "Repo" = some (.ok 0) :=
  ⟨rfl, rfl⟩

/-! ## Claim C1 -/

/-- C1 (counterexample): inserting a docstring into the parse of
`class X: # hi` destroys the ` # hi` comment: the mutation overwrites the
leading trivia of the suite's (unmutated) first token with the fixed
string, so the result is neither a pure value replacement nor an insertion
that preserves all pre-existing tokens' trivia. -/
theorem C1_counterexample :
    mutateForest "X" "D." exClassComment.children = .ok exClassCommentMut ∧
    ¬ C1Frame exClassComment.children exClassCommentMut (mkDocVal "D.") := by
  refine ⟨rfl, ?_⟩
  intro hfr
  rcases hfr with ⟨pre, p, v, post, h1, h2⟩ | ⟨pre, ins, post, hne, h1, h2⟩
  · have hfst : (leavesF exClassComment.children).map Prod.fst
        = (leavesF exClassCommentMut).map Prod.fst := by
      rw [h1, h2]
      simp
    exact absurd hfst (by decide)
  · have e1 : (leavesF exClassComment.children).length = 7 := by rfl
    have e2 : (leavesF exClassCommentMut).length = 7 := by rfl
    rw [h1] at e1
    rw [h2] at e2
    simp [List.length_append] at e1 e2
    have hz : ins.length = 0 := by omega
    exact hne (List.length_eq_zero.mp hz)

/-- C1 (amended): one docstring mutation changes exactly one token of the
re-serialized file: either an existing docstring token's value is replaced
by the new literal with its leading trivia intact, or the leading trivia of
the class body's first token is overwritten with the fixed string
`"\n    <literal>\n"` (its value intact) — every other token, trivia
included, is byte-identical. -/
theorem C1_frame (className doc : String) (cs cs' : List Node)
    (h : mutateForest className doc cs = .ok cs') :
    ∃ pre p v post,
      leavesF cs = pre ++ (p, v) :: post ∧
      (leavesF cs' = pre ++ (p, mkDocVal doc) :: post ∨
       leavesF cs' = pre ++ (insertPfxString doc, v) :: post) :=
  (mutateForest_frame_all className doc).2 cs cs' h

/-- C1 (witness): replacing the docstring of `class X` changes exactly the
docstring token. -/
theorem C1_frame_witness :
    mutateForest "X" "New." exClassDoc.children = .ok exClassDocMut.children ∧
    ∃ pre p v post,
      leavesF exClassDoc.children = pre ++ (p, v) :: post ∧
      (leavesF exClassDocMut.children = pre ++ (p, mkDocVal "New.") :: post ∨
       leavesF exClassDocMut.children
         = pre ++ (insertPfxString "New.", v) :: post) :=
  ⟨rfl, C1_frame "X" "New." exClassDoc.children exClassDocMut.children rfl⟩

/-! ## Claim C8 -/

/-- C8: the Synchronizer writes a file iff the re-serialized bytes differ
from the original bytes, and a second pass over the already-synchronized
tree performs no write (for trees whose class definitions are
grammar-shaped, i.e. never start with the `:` token). -/
theorem C8_sync_idempotent (tree : Node) (className doc : String)
    (hshape : classdefShapedN tree = true)
    (t1 : Node) (w1 : Bool)
    (h : syncTree tree className doc = some (t1, w1)) :
    (w1 = true ↔ ¬ t1.getCode = tree.getCode) ∧
    syncTree t1 className doc = some (t1, false) := by
  cases tree with
  | leaf a b c => rw [syncTree] at h; exact Option.noConfusion h
  | node t cs =>
      rw [syncTree] at h
      cases hf : mutateForest className doc cs with
      | notFound => rw [hf] at h; exact Option.noConfusion h
      | err => rw [hf] at h; exact Option.noConfusion h
      | ok cs' =>
          simp only [hf] at h
          have h' := Option.some.inj h
          rw [Prod.mk.injEq] at h'
          obtain ⟨rfl, rfl⟩ := h'
          have hshF : classdefShapedF cs = true := by
            rw [classdefShapedN, Bool.and_eq_true] at hshape
            exact hshape.2
          have hidem := (mutateForest_idem_all className doc).2 cs hshF cs' hf
          constructor
          · rw [decide_eq_true_eq]
            exact Iff.rfl
          · rw [syncTree]
            simp only [hidem]
            simp

/-- C8 (witness): synchronizing `class X` with a new short description
writes once (the bytes change), and a second pass performs no write. -/
theorem C8_sync_idempotent_witness :
    classdefShapedN exClassDoc = true ∧
    syncTree exClassDoc "X" "New." = some (exClassDocMut, true) ∧
    ((true = true ↔ ¬ exClassDocMut.getCode = exClassDoc.getCode) ∧
     syncTree exClassDocMut "X" "New." = some (exClassDocMut, false)) :=
  ⟨rfl, rfl, C8_sync_idempotent exClassDoc "X" "New." rfl exClassDocMut true rfl⟩

end GenInfo
